import Mathlib

/-!
# Verification of the BitSerializer core against its specification

Shallow embedding of the BitSerializer library (datetime conversion codec,
archive scopes of the binary stub and RapidJson backends, and the generic
container serialization) together with proofs about the embedded functions.

C++ `time_t`/`long long` arithmetic is embedded as `Int`; C++ signed `/` and
`%` (truncation toward zero) are `Int.tdiv`/`Int.tmod`, unsigned division on
values that the algorithms keep non-negative is Euclidean `/`.
-/

namespace BitSerializer

/-! ## Helper lemmas about C-style (truncated) division -/

/-- Truncated division of a non-negative numerator agrees with Euclidean division. -/
lemma tdiv_of_nonneg (a b : Int) (h : 0 ≤ a) (hb : 0 ≤ b) : a.tdiv b = a / b :=
  Int.tdiv_eq_ediv h hb

/-- Truncated division of a non-positive numerator by a non-negative divisor. -/
lemma tdiv_of_nonpos (a b : Int) (h : a ≤ 0) (hb : 0 ≤ b) : a.tdiv b = -(-a / b) := by
  conv_lhs => rw [show a = -(-a) by ring]
  rw [Int.neg_tdiv, Int.tdiv_eq_ediv (by omega) hb]

/-- Truncated remainder of a non-negative numerator agrees with the Euclidean one. -/
lemma tmod_of_nonneg (a b : Int) (h : 0 ≤ a) (hb : 0 ≤ b) : a.tmod b = a % b :=
  Int.tmod_eq_emod h hb

/-- Truncated remainder of a non-positive numerator by a non-negative divisor. -/
lemma tmod_of_nonpos (a b : Int) (h : a ≤ 0) (hb : 0 ≤ b) : a.tmod b = -(-a % b) := by
  rw [Int.tmod_def, tdiv_of_nonpos a b h hb, Int.emod_def]
  ring

/-! ## Embedding of `convert_chrono.h`: the civil-calendar codec

The `tm` structure is used by the library in a non-standard way: `tm_year` is
the full calendar year and `tm_mon` ranges over 1..12 (see `UnixTimeToUtc`).
The `int` fields are embedded as mathematical integers. -/

/-- The `tm` structure (only the fields the library uses). -/
structure tm where
  tm_year : Int
  tm_mon : Int
  tm_mday : Int
  tm_hour : Int
  tm_min : Int
  tm_sec : Int
deriving DecidableEq, Repr

/-- `tm_ext` from `convert_chrono.h`: `tm` extended with a milliseconds field. -/
structure tm_ext extends tm where
  ms : Int
deriving DecidableEq, Repr

/-- `DaysInMonth` table from `convert_chrono.h` (February is always 29). -/
def DaysInMonth : List Int := [31, 29, 31, 30, 31, 30, 31, 31, 30, 31, 30, 31]

/-- `UnixTimeToUtc` from `convert_chrono.h` (Howard Hinnant's algorithm plus the
adjustment of the time of day for instants before the epoch). -/
def UnixTimeToUtc (dateTime : Int) : tm :=
  let days0 := dateTime.tdiv 86400
  let time := dateTime - days0 * 86400
  let days := if time < 0 then days0 - 1 else days0
  let z := days + 719468
  let era := (if 0 ≤ z then z else z - 146096).tdiv 146097
  let doe := z - era * 146097
  let yoe := (doe - doe / 1460 + doe / 36524 - doe / 146096) / 365
  let y := yoe + era * 400
  let doy := doe - (365 * yoe + yoe / 4 - yoe / 100)
  let mp := (5 * doy + 2) / 153
  let d := doy - (153 * mp + 2) / 5 + 1
  let m := if mp < 10 then mp + 3 else mp - 9
  let hour := time.tdiv 3600
  let minute := (time.tmod 3600).tdiv 60
  let sec := time.tmod 60
  if time < 0 then
    let sec' := if sec < 0 then sec + 60 else sec
    let minute' := minute + (if sec' = 0 then 60 else 59)
    if minute' = 60 then
      ⟨y + (if m ≤ 2 then 1 else 0), m, d, hour + 24, 0, sec'⟩
    else
      ⟨y + (if m ≤ 2 then 1 else 0), m, d, hour + 23, minute', sec'⟩
  else
    ⟨y + (if m ≤ 2 then 1 else 0), m, d, hour, minute, sec⟩

/-- `UtcToUnixTime` from `convert_chrono.h` (the inverse decomposition). -/
def UtcToUnixTime (utc : tm) : Int :=
  let y := utc.tm_year - (if utc.tm_mon ≤ 2 then 1 else 0)
  let m := utc.tm_mon
  let d := utc.tm_mday
  let era := (if 0 ≤ y then y else y - 399).tdiv 400
  let yoe := y - era * 400
  let doy := (153 * (if 2 < m then m - 3 else m + 9) + 2) / 5 + d - 1
  let doe := yoe * 365 + yoe / 4 - yoe / 100 + doy
  let days := era * 146097 + doe - 719468
  let time := utc.tm_hour * 3600 + utc.tm_min * 60 + utc.tm_sec
  days * 86400 + time

/-! ### Correctness of the year-of-era formula

`yoeOfDoe` mirrors the `yoe` line of `UnixTimeToUtc`; `yearStartDoe` is the
day-of-era on which year-of-era `y` starts (the subtracted term in the `doy`
line); `leapBonus` is 1 exactly for the 366-day (March-based) years of an era. -/

/-- The bracketed numerator of the `yoe` line of `UnixTimeToUtc`. -/
def gBody (doe : Int) : Int := doe - doe / 1460 + doe / 36524 - doe / 146096

/-- The year-of-era formula from `UnixTimeToUtc`. -/
def yoeOfDoe (doe : Int) : Int := gBody doe / 365

/-- First day-of-era of year-of-era `y` (the term subtracted in the `doy` line). -/
def yearStartDoe (y : Int) : Int := 365 * y + y / 4 - y / 100

/-- 1 when year-of-era `y` has 366 days in the March-based calendar, else 0. -/
def leapBonus (y : Int) : Int :=
  if (y % 4 = 3 ∧ y % 100 ≠ 99) ∨ y = 399 then 1 else 0

lemma leapBonus_bounds (y : Int) : 0 ≤ leapBonus y ∧ leapBonus y ≤ 1 := by
  unfold leapBonus; split <;> omega

lemma gBody_step (n : Int) : gBody n ≤ gBody (n + 1) := by
  unfold gBody; omega

lemma gBody_mono {a b : Int} (h : a ≤ b) : gBody a ≤ gBody b :=
  @Int.le_induction (fun x => gBody a ≤ gBody x) a (le_refl _)
    (fun n _ ih => le_trans ih (gBody_step n)) b h

/-- Boolean check of the two year-boundary inequalities for year-of-era `n`. -/
def yearBoundaryOk (n : Nat) : Bool :=
  let y : Int := n
  decide (365 * y ≤ gBody (yearStartDoe y)) &&
    decide (gBody (yearStartDoe y + 364 + leapBonus y) ≤ 365 * y + 364)

set_option maxRecDepth 4000 in
lemma yearBoundaryOk_all : ∀ n : Nat, n < 400 → yearBoundaryOk n = true := by decide

lemma yearBoundary (y : Int) (h0 : 0 ≤ y) (h1 : y ≤ 399) :
    365 * y ≤ gBody (yearStartDoe y) ∧
      gBody (yearStartDoe y + 364 + leapBonus y) ≤ 365 * y + 364 := by
  have h2 := yearBoundaryOk_all y.toNat (by omega)
  unfold yearBoundaryOk at h2
  simp only [Bool.and_eq_true, decide_eq_true_eq] at h2
  rwa [Int.toNat_of_nonneg h0] at h2

lemma yearStartDoe_succ (y : Int) (h0 : 0 ≤ y) (h1 : y ≤ 398) :
    yearStartDoe (y + 1) = yearStartDoe y + 365 + leapBonus y := by
  unfold yearStartDoe leapBonus
  split <;> omega

/-- Every day-of-era lies in the day range of exactly one year-of-era. -/
lemma doe_partition (doe : Int) (h0 : 0 ≤ doe) (h1 : doe ≤ 146096) :
    ∃ y, 0 ≤ y ∧ y ≤ 399 ∧ yearStartDoe y ≤ doe ∧
      doe ≤ yearStartDoe y + 364 + leapBonus y := by
  revert h1
  refine @Int.le_induction
    (fun d => d ≤ 146096 → ∃ y, 0 ≤ y ∧ y ≤ 399 ∧ yearStartDoe y ≤ d ∧
      d ≤ yearStartDoe y + 364 + leapBonus y) 0 ?_ ?_ doe h0
  · intro _
    refine ⟨0, by omega, by omega, ?_, ?_⟩ <;> simp [yearStartDoe, leapBonus]
  · intro n hn ih h146
    obtain ⟨y, hy0, hy399, hys, hye⟩ := ih (by omega)
    rcases le_or_lt (n + 1) (yearStartDoe y + 364 + leapBonus y) with hin | hout
    · exact ⟨y, hy0, hy399, by omega, hin⟩
    · have hy398 : y ≤ 398 := by
        by_contra hy
        have hyeq : y = 399 := by omega
        subst hyeq
        have hv : yearStartDoe 399 = 145731 := by decide
        have hl : leapBonus 399 = 1 := by decide
        omega
      have hstep := yearStartDoe_succ y hy0 hy398
      have hlb := leapBonus_bounds (y + 1)
      exact ⟨y + 1, by omega, by omega, by omega, by omega⟩

/-- The year-of-era formula of `UnixTimeToUtc` is exact: it returns the unique
year-of-era whose day range contains `doe`. -/
lemma yoe_correct (doe : Int) (h0 : 0 ≤ doe) (h1 : doe ≤ 146096) :
    0 ≤ yoeOfDoe doe ∧ yoeOfDoe doe ≤ 399 ∧
      yearStartDoe (yoeOfDoe doe) ≤ doe ∧
      doe ≤ yearStartDoe (yoeOfDoe doe) + 364 + leapBonus (yoeOfDoe doe) := by
  obtain ⟨y, hy0, hy399, hys, hye⟩ := doe_partition doe h0 h1
  have hys0 : 0 ≤ yearStartDoe y := by unfold yearStartDoe; omega
  have m1 : gBody (yearStartDoe y) ≤ gBody doe := gBody_mono hys
  have m2 : gBody doe ≤ gBody (yearStartDoe y + 364 + leapBonus y) := gBody_mono hye
  obtain ⟨b1, b2⟩ := yearBoundary y hy0 hy399
  have heq : yoeOfDoe doe = y := by
    unfold yoeOfDoe
    omega
  rw [heq]
  exact ⟨hy0, hy399, hys, hye⟩

/-- The sign trick of the `era` line computes a floor division. -/
lemma era_tdiv_146097 (z : Int) :
    (if 0 ≤ z then z else z - 146096).tdiv 146097 = z / 146097 := by
  rcases le_or_lt 0 z with h | h
  · rw [if_pos h, tdiv_of_nonneg z 146097 h (by norm_num)]
  · rw [if_neg (by omega), tdiv_of_nonpos _ 146097 (by omega) (by norm_num)]
    omega

/-- The sign trick of the `era` line of `UtcToUnixTime` computes a floor division. -/
lemma era_tdiv_400 (y : Int) :
    (if 0 ≤ y then y else y - 399).tdiv 400 = y / 400 := by
  rcases le_or_lt 0 y with h | h
  · rw [if_pos h, tdiv_of_nonneg y 400 h (by norm_num)]
  · rw [if_neg (by omega), tdiv_of_nonpos _ 400 (by omega) (by norm_num)]
    omega

/-- `UtcToUnixTime` inverts the civil decomposition produced inside
`UnixTimeToUtc`: applied to the fields computed from any day number `z - 719468`
(in the era/year-of-era/day-of-year form of the algorithm) it returns that day
number times 86400 plus the given time of day. -/
lemma civil_inverse (z era doe yoe y doy mp d m hour minute sec : Int)
    (hera : era = z / 146097) (hdoe : doe = z - era * 146097)
    (hyoe : yoe = (doe - doe / 1460 + doe / 36524 - doe / 146096) / 365)
    (hy : y = yoe + era * 400)
    (hdoy : doy = doe - (365 * yoe + yoe / 4 - yoe / 100))
    (hmp : mp = (5 * doy + 2) / 153)
    (hd : d = doy - (153 * mp + 2) / 5 + 1)
    (hm : m = if mp < 10 then mp + 3 else mp - 9) :
    UtcToUnixTime ⟨y + (if m ≤ 2 then 1 else 0), m, d, hour, minute, sec⟩
      = (z - 719468) * 86400 + (hour * 3600 + minute * 60 + sec) := by
  have hdoe0 : 0 ≤ doe := by subst hera; omega
  have hdoe1 : doe ≤ 146096 := by subst hera; omega
  have key := yoe_correct doe hdoe0 hdoe1
  have hyoe2 : yoeOfDoe doe = yoe := by unfold yoeOfDoe gBody; omega
  rw [hyoe2] at key
  have hys : yearStartDoe yoe = 365 * yoe + yoe / 4 - yoe / 100 := rfl
  rw [hys] at key
  obtain ⟨k1, k2, k3, k4⟩ := key
  obtain ⟨l1, l2⟩ := leapBonus_bounds yoe
  simp only [UtcToUnixTime]
  rw [era_tdiv_400]
  have hmp0 : 0 ≤ mp := by omega
  have hmp11 : mp ≤ 11 := by omega
  rcases lt_or_le mp 10 with hmp10 | hmp10
  · rw [if_pos hmp10] at hm
    rw [if_neg (by omega : ¬ m ≤ 2), if_pos (by omega : 2 < m)]
    simp only [add_zero, sub_zero]
    have ho : y / 400 = era := by omega
    rw [ho]
    have hyoe3 : y - era * 400 = yoe := by omega
    rw [hyoe3]
    have hr : (153 * (m - 3) + 2) / 5 = (153 * mp + 2) / 5 := by omega
    rw [hr]
    omega
  · rw [if_neg (by omega : ¬ mp < 10)] at hm
    rw [if_pos (by omega : m ≤ 2), if_neg (by omega : ¬ 2 < m)]
    simp only [add_sub_cancel_right]
    have ho : y / 400 = era := by omega
    rw [ho]
    have hyoe3 : y - era * 400 = yoe := by omega
    rw [hyoe3]
    have hr : (153 * (m + 9) + 2) / 5 = (153 * mp + 2) / 5 := by omega
    rw [hr]
    omega

/-- The era-based algorithm over unbounded integers: for every `t` the ideal
decomposition and recomposition are exact mutual inverses. (The source
computes part of the recomposition in 32-bit `int`; the width-checked
variants below track where that matters.) -/
lemma roundtrip_unbounded (t : Int) :
    UtcToUnixTime (UnixTimeToUtc t) = t := by
  simp only [UnixTimeToUtc]
  rcases le_or_lt 0 t with ht | ht
  · rw [tdiv_of_nonneg t 86400 ht (by norm_num)]
    have htime : ¬ (t - t / 86400 * 86400 < 0) := by omega
    simp only [if_neg htime]
    rw [era_tdiv_146097]
    rw [tmod_of_nonneg _ 3600 (by omega) (by norm_num),
        tmod_of_nonneg _ 60 (by omega) (by norm_num),
        tdiv_of_nonneg _ 3600 (by omega) (by norm_num),
        tdiv_of_nonneg _ 60 (Int.emod_nonneg _ (by norm_num)) (by norm_num)]
    rw [civil_inverse (t / 86400 + 719468) _ _ _ _ _ _ _ _ _ _ _
        rfl rfl rfl rfl rfl rfl rfl rfl]
    omega
  · rw [tdiv_of_nonpos t 86400 (le_of_lt ht) (by norm_num)]
    have htle : t - -(-t / 86400) * 86400 ≤ 0 := by omega
    rw [era_tdiv_146097]
    rw [tmod_of_nonpos _ 3600 htle (by norm_num),
        tmod_of_nonpos _ 60 htle (by norm_num),
        tdiv_of_nonpos _ 3600 htle (by norm_num),
        tdiv_of_nonpos _ 60 (by omega) (by norm_num)]
    simp only [neg_neg]
    by_cases hc : t - -(-t / 86400) * 86400 < 0
    · simp only [if_pos hc, apply_ite UtcToUnixTime]
      rw [civil_inverse (-(-t / 86400) - 1 + 719468) _ _ _ _ _ _ _ _ _ _ _
            rfl rfl rfl rfl rfl rfl rfl rfl,
          civil_inverse (-(-t / 86400) - 1 + 719468) _ _ _ _ _ _ _ _ _ _ _
            rfl rfl rfl rfl rfl rfl rfl rfl]
      split_ifs <;> omega
    · simp only [if_neg hc]
      rw [civil_inverse (-(-t / 86400) + 719468) _ _ _ _ _ _ _ _ _ _ _
            rfl rfl rfl rfl rfl rfl rfl rfl]
      omega

/-! ### The source's 32-bit `int` intermediates

`UnixTimeToUtc` computes everything through `y` in 64-bit `time_t` (or in
`unsigned` on values inside the ranges its comments note), exactly as over ℤ,
and then narrows: `utc.tm_year = static_cast<int>(y) + (m <= 2)`.
`UtcToUnixTime` computes `y`, `era` and `days = era * 146097 + doe - 719468`
in 32-bit `int`. The checked variants below return `none` whenever one of
those `int` results (or an operand) leaves `[-2^31, 2^31 - 1]`, where the
source's behaviour is undefined (signed overflow) or implementation-defined
(a narrowing cast); inside the checks they agree with the ideal functions. -/

/-- The year value `y` of `UnixTimeToUtc` before the narrowing
`static_cast<int>` (the let-chain of the source up to `y`). -/
def yWide (dateTime : Int) : Int :=
  let days0 := dateTime.tdiv 86400
  let time := dateTime - days0 * 86400
  let days := if time < 0 then days0 - 1 else days0
  let z := days + 719468
  let era := (if 0 ≤ z then z else z - 146096).tdiv 146097
  let doe := z - era * 146097
  let yoe := (doe - doe / 1460 + doe / 36524 - doe / 146096) / 365
  yoe + era * 400

/-- `UnixTimeToUtc` with the narrowing `static_cast<int>(y)` checked: the
value is that of `UnixTimeToUtc` while `y` (and `y + 1`, covering the
subsequent addition of the boolean `m <= 2`) fits in `int`, and `none` once
the cast leaves `int`. -/
def UnixTimeToUtcC (dateTime : Int) : Option tm :=
  if -2147483648 ≤ yWide dateTime ∧ yWide dateTime + 1 ≤ 2147483647
  then some (UnixTimeToUtc dateTime) else none

/-- `UtcToUnixTime` with the source's `int`-typed intermediates checked:
`y = tm_year - (tm_mon <= 2)`, the operand of the `era` sign trick,
`era * 146097`, `era * 146097 + doe` and the final `days` are `int` in the
source, and `tm_mon`, `tm_mday`, `doy` and `doe` pass through
`static_cast<unsigned>`/`static_cast<int>` (value-preserving only on
non-negative values that fit `int`). The value is that of `UtcToUnixTime`
when every such result is representable, and `none` otherwise (signed
overflow is undefined behaviour). -/
def UtcToUnixTimeC (utc : tm) : Option Int :=
  let y := utc.tm_year - (if utc.tm_mon ≤ 2 then 1 else 0)
  let era := (if 0 ≤ y then y else y - 399).tdiv 400
  let yoe := y - era * 400
  let doy := (153 * (if 2 < utc.tm_mon then utc.tm_mon - 3 else utc.tm_mon + 9) + 2) / 5
    + utc.tm_mday - 1
  let doe := yoe * 365 + yoe / 4 - yoe / 100 + doy
  if -2147483648 ≤ y ∧ y ≤ 2147483647 ∧
      -2147483648 ≤ (if 0 ≤ y then y else y - 399) ∧
      0 ≤ utc.tm_mon ∧ 0 ≤ utc.tm_mday ∧ 0 ≤ doy ∧
      0 ≤ doe ∧ doe ≤ 2147483647 ∧
      -2147483648 ≤ era * 146097 ∧ era * 146097 ≤ 2147483647 ∧
      -2147483648 ≤ era * 146097 + doe ∧ era * 146097 + doe ≤ 2147483647 ∧
      -2147483648 ≤ era * 146097 + doe - 719468 ∧
      era * 146097 + doe - 719468 ≤ 2147483647
  then some (UtcToUnixTime utc) else none

lemma yWide_bound (t : Int)
    (h1 : -185000000000000 ≤ t) (h2 : t ≤ 185000000000000) :
    -5864400 ≤ yWide t ∧ yWide t ≤ 5864400 := by
  unfold yWide
  dsimp only
  rcases le_or_lt 0 t with ht | ht
  · rw [tdiv_of_nonneg t 86400 ht (by norm_num)]
    have htime : ¬ (t - t / 86400 * 86400 < 0) := by omega
    simp only [if_neg htime]
    rw [era_tdiv_146097]
    constructor <;> omega
  · rw [tdiv_of_nonpos t 86400 (le_of_lt ht) (by norm_num)]
    rw [era_tdiv_146097]
    by_cases hc : t - -(-t / 86400) * 86400 < 0
    · simp only [if_pos hc]
      constructor <;> omega
    · simp only [if_neg hc]
      constructor <;> omega

/-- On years whose decomposition keeps every `int` intermediate small, the
checked recomposition completes and agrees with the ideal one. -/
lemma UtcToUnixTimeC_agrees (utc : tm)
    (hy1 : -5864401 ≤ utc.tm_year) (hy2 : utc.tm_year ≤ 5864401)
    (hm1 : 1 ≤ utc.tm_mon) (hm2 : utc.tm_mon ≤ 12)
    (hd1 : 1 ≤ utc.tm_mday) (hd2 : utc.tm_mday ≤ 31) :
    UtcToUnixTimeC utc = some (UtcToUnixTime utc) := by
  obtain ⟨year, mon, mday, hh, mi, ss⟩ := utc
  dsimp only at hy1 hy2 hm1 hm2 hd1 hd2
  simp only [UtcToUnixTimeC]
  rw [era_tdiv_400]
  dsimp only
  by_cases hb : mon ≤ 2
  · simp only [if_pos hb, if_neg (show ¬ 2 < mon by omega)]
    rcases le_or_lt 0 (year - 1 : Int) with h0 | h0
    · rw [if_pos h0]
      split_ifs with hC
      · rfl
      · exact absurd (by omega) hC
    · rw [if_neg (show ¬ ((0:Int) ≤ year - 1) by omega)]
      split_ifs with hC
      · rfl
      · exact absurd (by omega) hC
  · simp only [if_neg hb, if_pos (show 2 < mon by omega), sub_zero]
    rcases le_or_lt 0 (year : Int) with h0 | h0
    · rw [if_pos h0]
      split_ifs with hC
      · rfl
      · exact absurd (by omega) hC
    · rw [if_neg (show ¬ ((0:Int) ≤ year) by omega)]
      split_ifs with hC
      · rfl
      · exact absurd (by omega) hC

/-- The checked recomposition applied to the fields the decomposition computes
from a day number `z - 719468` with `|z|` small completes (no `int` overflow)
and agrees with the ideal recomposition. -/
lemma civil_inverse_checked (z era doe yoe y doy mp d m hour minute sec : Int)
    (hz1 : -2141923172 ≤ z) (hz2 : z ≤ 2141923172)
    (hera : era = z / 146097) (hdoe : doe = z - era * 146097)
    (hyoe : yoe = (doe - doe / 1460 + doe / 36524 - doe / 146096) / 365)
    (hy : y = yoe + era * 400)
    (hdoy : doy = doe - (365 * yoe + yoe / 4 - yoe / 100))
    (hmp : mp = (5 * doy + 2) / 153)
    (hd : d = doy - (153 * mp + 2) / 5 + 1)
    (hm : m = if mp < 10 then mp + 3 else mp - 9) :
    UtcToUnixTimeC ⟨y + (if m ≤ 2 then 1 else 0), m, d, hour, minute, sec⟩
      = some (UtcToUnixTime ⟨y + (if m ≤ 2 then 1 else 0), m, d, hour, minute, sec⟩) := by
  have hdoe0 : 0 ≤ doe := by subst hera; omega
  have hdoe1 : doe ≤ 146096 := by subst hera; omega
  have key := yoe_correct doe hdoe0 hdoe1
  have hyoe2 : yoeOfDoe doe = yoe := by unfold yoeOfDoe gBody; omega
  rw [hyoe2] at key
  have hys : yearStartDoe yoe = 365 * yoe + yoe / 4 - yoe / 100 := rfl
  rw [hys] at key
  obtain ⟨k1, k2, k3, k4⟩ := key
  obtain ⟨l1, l2⟩ := leapBonus_bounds yoe
  have hmp0 : 0 ≤ mp := by omega
  have hmp11 : mp ≤ 11 := by omega
  apply UtcToUnixTimeC_agrees
  · dsimp only
    split_ifs <;> omega
  · dsimp only
    split_ifs <;> omega
  · dsimp only
    split_ifs at hm <;> omega
  · dsimp only
    split_ifs at hm <;> omega
  · dsimp only
    omega
  · dsimp only
    omega

/-- **C1 (amended).** On the domain where the source's 32-bit `int`
intermediates stay representable — here for every `t` within
±185 000 000 000 000 seconds of the epoch, i.e. civil years within roughly
±5.86 million — the width-checked decomposition and recomposition complete
without overflow and are exact mutual inverses, with no drift for times
before 1970. (Outside that domain, still inside `time_t`, the recomposition's
`era * 146097 + doe - 719468` overflows `int`: see the counterexample.) -/
theorem roundtrip_within_int_range (t : Int)
    (h1 : -185000000000000 ≤ t) (h2 : t ≤ 185000000000000) :
    UnixTimeToUtcC t = some (UnixTimeToUtc t) ∧
    UtcToUnixTimeC (UnixTimeToUtc t) = some t := by
  constructor
  · have hb := yWide_bound t h1 h2
    unfold UnixTimeToUtcC
    split_ifs with hC
    · rfl
    · exact absurd (by omega) hC
  · simp only [UnixTimeToUtc]
    rcases le_or_lt 0 t with ht | ht
    · rw [tdiv_of_nonneg t 86400 ht (by norm_num)]
      have htime : ¬ (t - t / 86400 * 86400 < 0) := by omega
      simp only [if_neg htime]
      rw [era_tdiv_146097]
      rw [tmod_of_nonneg _ 3600 (by omega) (by norm_num),
          tmod_of_nonneg _ 60 (by omega) (by norm_num),
          tdiv_of_nonneg _ 3600 (by omega) (by norm_num),
          tdiv_of_nonneg _ 60 (Int.emod_nonneg _ (by norm_num)) (by norm_num)]
      rw [civil_inverse_checked (t / 86400 + 719468) _ _ _ _ _ _ _ _ _ _ _
          (by omega) (by omega) rfl rfl rfl rfl rfl rfl rfl rfl]
      rw [civil_inverse (t / 86400 + 719468) _ _ _ _ _ _ _ _ _ _ _
          rfl rfl rfl rfl rfl rfl rfl rfl]
      congr 1
      omega
    · rw [tdiv_of_nonpos t 86400 (le_of_lt ht) (by norm_num)]
      have htle : t - -(-t / 86400) * 86400 ≤ 0 := by omega
      rw [era_tdiv_146097]
      rw [tmod_of_nonpos _ 3600 htle (by norm_num),
          tmod_of_nonpos _ 60 htle (by norm_num),
          tdiv_of_nonpos _ 3600 htle (by norm_num),
          tdiv_of_nonpos _ 60 (by omega) (by norm_num)]
      simp only [neg_neg]
      by_cases hc : t - -(-t / 86400) * 86400 < 0
      · simp only [if_pos hc, apply_ite UtcToUnixTimeC]
        rw [civil_inverse_checked (-(-t / 86400) - 1 + 719468) _ _ _ _ _ _ _ _ _ _ _
              (by omega) (by omega) rfl rfl rfl rfl rfl rfl rfl rfl,
            civil_inverse_checked (-(-t / 86400) - 1 + 719468) _ _ _ _ _ _ _ _ _ _ _
              (by omega) (by omega) rfl rfl rfl rfl rfl rfl rfl rfl]
        rw [civil_inverse (-(-t / 86400) - 1 + 719468) _ _ _ _ _ _ _ _ _ _ _
              rfl rfl rfl rfl rfl rfl rfl rfl,
            civil_inverse (-(-t / 86400) - 1 + 719468) _ _ _ _ _ _ _ _ _ _ _
              rfl rfl rfl rfl rfl rfl rfl rfl]
        split_ifs <;> refine congrArg _ ?_ <;> omega
      · simp only [if_neg hc]
        rw [civil_inverse_checked (-(-t / 86400) + 719468) _ _ _ _ _ _ _ _ _ _ _
              (by omega) (by omega) rfl rfl rfl rfl rfl rfl rfl rfl]
        rw [civil_inverse (-(-t / 86400) + 719468) _ _ _ _ _ _ _ _ _ _ _
              rfl rfl rfl rfl rfl rfl rfl rfl]
        congr 1
        omega

/-- Witness for the amended C1 at a concrete pre-epoch instant (1835). -/
theorem roundtrip_within_int_range_witness :
    ((-185000000000000 ≤ (-4260211200 : Int)) ∧
      ((-4260211200 : Int) ≤ 185000000000000)) ∧
    (UnixTimeToUtcC (-4260211200) = some (UnixTimeToUtc (-4260211200)) ∧
      UtcToUnixTimeC (UnixTimeToUtc (-4260211200)) = some (-4260211200)) :=
  ⟨⟨by decide, by decide⟩,
    roundtrip_within_int_range (-4260211200) (by decide) (by decide)⟩

/-- **C1 (counterexample).** At `t = 2 * 10^14` seconds — a valid `time_t`
value, civil year 6 339 718 — the decomposition still completes (its year
fits `int`), but the checked recomposition hits the overflow of the `int`
expression `era * 146097 + doe - 719468` and returns `none` (the source's
arithmetic is undefined there): the two functions are not mutual inverses
over the full supported `time_t` range. -/
theorem roundtrip_int_overflow :
    UnixTimeToUtcC 200000000000000 = some (UnixTimeToUtc 200000000000000) ∧
    UtcToUnixTimeC (UnixTimeToUtc 200000000000000) = none := by decide

/-! ### The inverse direction: valid civil fields round-trip through Unix time -/

/-- 1 when `y` is a leap year of the proleptic Gregorian calendar, else 0. -/
def civilLeap (y : Int) : Int :=
  if y % 4 = 0 ∧ (y % 100 ≠ 0 ∨ y % 400 = 0) then 1 else 0

lemma civilLeap_bounds (y : Int) : 0 ≤ civilLeap y ∧ civilLeap y ≤ 1 := by
  unfold civilLeap; split <;> omega

/-- Number of days of month `m` of civil year `year` (proleptic Gregorian). -/
def civilDaysInMonth (year m : Int) : Int :=
  if m = 1 then 31 else if m = 2 then 28 + civilLeap year
  else if m = 3 then 31 else if m = 4 then 30 else if m = 5 then 31
  else if m = 6 then 30 else if m = 7 then 31 else if m = 8 then 31
  else if m = 9 then 30 else if m = 10 then 31 else if m = 11 then 30 else 31

/-- A `tm` value holding an existing civil date and a valid time of day (as in
the library's usage: `tm_year` is the full year, `tm_mon` is 1..12). -/
def ValidTm (utc : tm) : Prop :=
  1 ≤ utc.tm_mon ∧ utc.tm_mon ≤ 12 ∧
    1 ≤ utc.tm_mday ∧ utc.tm_mday ≤ civilDaysInMonth utc.tm_year utc.tm_mon ∧
    0 ≤ utc.tm_hour ∧ utc.tm_hour ≤ 23 ∧
    0 ≤ utc.tm_min ∧ utc.tm_min ≤ 59 ∧
    0 ≤ utc.tm_sec ∧ utc.tm_sec ≤ 59

instance (utc : tm) : Decidable (ValidTm utc) := by unfold ValidTm; infer_instance

lemma yearStartDoe_mono {a b : Int} (h0 : 0 ≤ a) (h : a ≤ b) :
    yearStartDoe a ≤ yearStartDoe b := by
  unfold yearStartDoe; omega

/-- The year ranges of an era are pairwise disjoint. -/
lemma partition_unique (doe y1 y2 : Int)
    (h10 : 0 ≤ y1) (h19 : y1 ≤ 399) (h1s : yearStartDoe y1 ≤ doe)
    (h1e : doe ≤ yearStartDoe y1 + 364 + leapBonus y1)
    (h20 : 0 ≤ y2) (h29 : y2 ≤ 399) (h2s : yearStartDoe y2 ≤ doe)
    (h2e : doe ≤ yearStartDoe y2 + 364 + leapBonus y2) : y1 = y2 := by
  rcases lt_trichotomy y1 y2 with hlt | heq | hgt
  · have hstep := yearStartDoe_succ y1 h10 (by omega)
    have hmono := yearStartDoe_mono (by omega : 0 ≤ y1 + 1) (by omega : y1 + 1 ≤ y2)
    omega
  · exact heq
  · have hstep := yearStartDoe_succ y2 h20 (by omega)
    have hmono := yearStartDoe_mono (by omega : 0 ≤ y2 + 1) (by omega : y2 + 1 ≤ y1)
    omega

/-- The day range of year-of-era `y` stays inside the era. -/
lemma yearRange_le (y : Int) (h0 : 0 ≤ y) (h1 : y ≤ 399) :
    yearStartDoe y + 364 + leapBonus y ≤ 146096 := by
  rcases lt_or_le y 399 with h | h
  · have hstep := yearStartDoe_succ y h0 (by omega)
    have hmono := yearStartDoe_mono (by omega : 0 ≤ y + 1) (by omega : y + 1 ≤ 399)
    have hv : yearStartDoe 399 = 145731 := by decide
    omega
  · have hy : y = 399 := by omega
    subst hy
    have hv : yearStartDoe 399 = 145731 := by decide
    have hl : leapBonus 399 = 1 := by decide
    omega

/-- Leap status of the March-based year-of-era used by the algorithm agrees
with the civil leap rule of year `y` (relevant for January/February, where the
algorithm works in year `y - 1`). -/
lemma leap_transfer (y yoe : Int) (hyoe : yoe = y - 1 - (y - 1) / 400 * 400) :
    leapBonus yoe = civilLeap y := by
  unfold leapBonus civilLeap
  split_ifs <;> omega

/-- Round-trip of the month-permutation trick for a valid civil day of month. -/
lemma month_roundtrip (mon day yoe year : Int)
    (hm1 : 1 ≤ mon) (hm2 : mon ≤ 12) (hd1 : 1 ≤ day)
    (hd2 : day ≤ civilDaysInMonth year mon)
    (hlt : 2 < mon ∨ leapBonus yoe = civilLeap year) :
    0 ≤ (153 * (if 2 < mon then mon - 3 else mon + 9) + 2) / 5 + day - 1 ∧
      (153 * (if 2 < mon then mon - 3 else mon + 9) + 2) / 5 + day - 1
        ≤ 364 + leapBonus yoe ∧
      (5 * ((153 * (if 2 < mon then mon - 3 else mon + 9) + 2) / 5 + day - 1) + 2) / 153
        = (if 2 < mon then mon - 3 else mon + 9) ∧
      ((153 * (if 2 < mon then mon - 3 else mon + 9) + 2) / 5 + day - 1)
          - (153 * ((if 2 < mon then mon - 3 else mon + 9)) + 2) / 5 + 1 = day ∧
      (if (if 2 < mon then mon - 3 else mon + 9) < 10
        then (if 2 < mon then mon - 3 else mon + 9) + 3
        else (if 2 < mon then mon - 3 else mon + 9) - 9) = mon := by
  have hcl := civilLeap_bounds year
  have hlb := leapBonus_bounds yoe
  unfold civilDaysInMonth at hd2
  interval_cases mon <;> simp_all <;> omega

set_option maxHeartbeats 1600000 in
/-- Core of the inverse round trip, over opaque variables mirroring the locals
of `UtcToUnixTime`: `UnixTimeToUtc` applied to the produced epoch seconds
returns exactly the original valid civil fields. -/
lemma civil_forward_core (year mon day hh mi ss y1 era yoe mp doy doe days T : Int)
    (hm1 : 1 ≤ mon) (hm2 : mon ≤ 12) (hd1 : 1 ≤ day)
    (hd2 : day ≤ civilDaysInMonth year mon)
    (hh1 : 0 ≤ hh) (hh2 : hh ≤ 23) (hmi1 : 0 ≤ mi) (hmi2 : mi ≤ 59)
    (hs1 : 0 ≤ ss) (hs2 : ss ≤ 59)
    (hy1 : y1 = year - (if mon ≤ 2 then 1 else 0))
    (hera : era = y1 / 400)
    (hyoe : yoe = y1 - era * 400)
    (hmp : mp = if 2 < mon then mon - 3 else mon + 9)
    (hdoy : doy = (153 * mp + 2) / 5 + day - 1)
    (hdoe : doe = yoe * 365 + yoe / 4 - yoe / 100 + doy)
    (hdays : days = era * 146097 + doe - 719468)
    (hT : T = hh * 3600 + mi * 60 + ss) :
    UnixTimeToUtc (days * 86400 + T) = ⟨year, mon, day, hh, mi, ss⟩ := by
  have hyoe0 : 0 ≤ yoe := by omega
  have hyoe9 : yoe ≤ 399 := by omega
  have hlt : 2 < mon ∨ leapBonus yoe = civilLeap year := by
    rcases lt_or_le 2 mon with h | h
    · exact Or.inl h
    · refine Or.inr (leap_transfer year yoe ?_)
      rw [hyoe, hera, hy1, if_pos h]
  have hmr := month_roundtrip mon day yoe year hm1 hm2 hd1 hd2 hlt
  rw [← hmp] at hmr
  rw [← hdoy] at hmr
  obtain ⟨hdoy0, hdoy1, hmp2, hd2a, hm2a⟩ := hmr
  have hyr := yearRange_le yoe hyoe0 hyoe9
  have hysv : yearStartDoe yoe = 365 * yoe + yoe / 4 - yoe / 100 := rfl
  have hdoe0 : 0 ≤ doe := by omega
  have hdoe1 : doe ≤ 146096 := by omega
  have hT0 : 0 ≤ T := by omega
  have hT1 : T ≤ 86399 := by omega
  have hk := yoe_correct doe hdoe0 hdoe1
  have hyyEq : yoeOfDoe doe = yoe := by
    refine partition_unique doe (yoeOfDoe doe) yoe hk.1 hk.2.1 hk.2.2.1 hk.2.2.2
      hyoe0 hyoe9 (by omega) (by omega)
  have hyoeF : (doe - doe / 1460 + doe / 36524 - doe / 146096) / 365 = yoe := hyyEq
  simp only [UnixTimeToUtc]
  rcases le_or_lt 0 (days * 86400 + T) with hN | hN
  · rw [tdiv_of_nonneg _ 86400 hN (by norm_num)]
    have hq : (days * 86400 + T) / 86400 = days := by omega
    rw [hq]
    have hc : ¬ (days * 86400 + T - days * 86400 < 0) := by omega
    simp only [if_neg hc]
    rw [era_tdiv_146097]
    have hz : days + 719468 = era * 146097 + doe := by omega
    rw [hz]
    have he : (era * 146097 + doe) / 146097 = era := by omega
    rw [he]
    have hde : era * 146097 + doe - era * 146097 = doe := by ring
    rw [hde, hyoeF]
    have hdy : doe - (365 * yoe + yoe / 4 - yoe / 100) = doy := by omega
    rw [hdy, hmp2, hm2a]
    rw [tmod_of_nonneg _ 3600 (by omega) (by norm_num),
        tmod_of_nonneg _ 60 (by omega) (by norm_num),
        tdiv_of_nonneg _ 3600 (by omega) (by norm_num),
        tdiv_of_nonneg _ 60 (Int.emod_nonneg _ (by norm_num)) (by norm_num)]
    congr 1 <;> omega
  · rw [tdiv_of_nonpos _ 86400 (by omega) (by norm_num)]
    rcases eq_or_lt_of_le hT0 with hTz | hTpos
    · -- T = 0: the instant is an exact negative day boundary
      have hq : -(-(days * 86400 + T) / 86400) = days := by omega
      rw [hq]
      have hc : ¬ (days * 86400 + T - days * 86400 < 0) := by omega
      simp only [if_neg hc]
      rw [era_tdiv_146097]
      have hz : days + 719468 = era * 146097 + doe := by omega
      rw [hz]
      have he : (era * 146097 + doe) / 146097 = era := by omega
      rw [he]
      have hde : era * 146097 + doe - era * 146097 = doe := by ring
      rw [hde, hyoeF]
      have hdy : doe - (365 * yoe + yoe / 4 - yoe / 100) = doy := by omega
      rw [hdy, hmp2, hm2a]
      rw [tmod_of_nonneg _ 3600 (by omega) (by norm_num),
          tmod_of_nonneg _ 60 (by omega) (by norm_num),
          tdiv_of_nonneg _ 3600 (by omega) (by norm_num),
          tdiv_of_nonneg _ 60 (Int.emod_nonneg _ (by norm_num)) (by norm_num)]
      congr 1 <;> omega
    · -- 0 < T: truncation overshoots by one day and the code adjusts h:m:s
      have hq : -(-(days * 86400 + T) / 86400) = days + 1 := by omega
      rw [hq]
      have hc : days * 86400 + T - (days + 1) * 86400 < 0 := by omega
      simp only [if_pos hc]
      rw [era_tdiv_146097]
      have hz : days + 1 - 1 + 719468 = era * 146097 + doe := by omega
      rw [hz]
      have he : (era * 146097 + doe) / 146097 = era := by omega
      rw [he]
      have hde : era * 146097 + doe - era * 146097 = doe := by ring
      rw [hde, hyoeF]
      have hdy : doe - (365 * yoe + yoe / 4 - yoe / 100) = doy := by omega
      rw [hdy, hmp2, hm2a]
      have htm : days * 86400 + T - (days + 1) * 86400 = T - 86400 := by ring
      rw [htm]
      rw [tmod_of_nonpos _ 3600 (by omega) (by norm_num),
          tmod_of_nonpos _ 60 (by omega) (by norm_num),
          tdiv_of_nonpos _ 3600 (by omega) (by norm_num),
          tdiv_of_nonpos _ 60 (by omega) (by norm_num)]
      simp only [neg_neg]
      split_ifs <;> (congr 1 <;> omega)

/-- Valid civil UTC fields survive the round trip through Unix time: the civil
to epoch decomposition followed by the epoch to civil one is the identity. -/
theorem UtcToUnixTime_UnixTimeToUtc_roundtrip (utc : tm) (hv : ValidTm utc) :
    UnixTimeToUtc (UtcToUnixTime utc) = utc := by
  obtain ⟨year, mon, day, hh, mi, ss⟩ := utc
  unfold ValidTm at hv
  dsimp only at hv
  obtain ⟨hm1, hm2, hd1, hd2, hh1, hh2, hmi1, hmi2, hs1, hs2⟩ := hv
  simp only [UtcToUnixTime]
  dsimp only
  rw [era_tdiv_400]
  exact civil_forward_core year mon day hh mi ss _ _ _ _ _ _ _ _
    hm1 hm2 hd1 hd2 hh1 hh2 hmi1 hmi2 hs1 hs2
    rfl rfl rfl rfl rfl rfl rfl rfl

/-! ## Embedding of `parseDatetime` -/

/-- The two exception messages thrown by `parseDatetime`. -/
inductive DatetimeParseError where
  /-- "Input datetime contains out-of-bounds values" -/
  | outOfBounds
  /-- "Input string is not a valid ISO datetime: YYYY-MM-DDThh:mm:ss[.SSS]Z" -/
  | badFormat
deriving DecidableEq, Repr

/-- Outcome of a step of the datetime parser. `oob` marks an out-of-bounds
memory access of the C++ code (dereferencing the end pointer, or indexing
`DaysInMonth` below 0): undefined behavior, distinct from a thrown exception. -/
inductive ParseOutcome (α : Type) where
  | ok (v : α)
  | err (e : DatetimeParseError)
  | oob
deriving DecidableEq, Repr

def ParseOutcome.bind : ParseOutcome α → (α → ParseOutcome β) → ParseOutcome β
  | .ok v, f => f v
  | .err e, _ => .err e
  | .oob, _ => .oob

/-- Value of a run of decimal digit characters (`std::from_chars` accumulator). -/
def digitsToNat (ds : List Char) : Nat :=
  ds.foldl (fun a c => 10 * a + (c.toNat - 48)) 0

/-- `parseDatetimePart` from `convert_chrono.h`: checks `isdigit(*buf)` (an
out-of-bounds read when `buf = end`), runs `std::from_chars` into an `int`
(every digit is consumed; values above `INT_MAX` set `result.ec`), applies the
`maxValue` bound (0 disables it, violation throws the out-of-bounds message),
then consumes the delimiter when one is requested; every other shape throws
the pattern message. Returns the parsed value and the rest of the input. -/
def parseDatetimePart (buf : List Char) (maxValue : Int) (delimiter : Option Char) :
    ParseOutcome (Int × List Char) :=
  match buf with
  | [] => .oob
  | c :: _ =>
    if c.isDigit then
      let ds := buf.takeWhile Char.isDigit
      let rest := buf.dropWhile Char.isDigit
      if digitsToNat ds ≤ 2147483647 then
        let outValue : Int := digitsToNat ds
        if maxValue ≠ 0 ∧ maxValue < outValue then .err .outOfBounds
        else
          match delimiter with
          | some d =>
            match rest with
            | r :: rs => if r = d then .ok (outValue, rs) else .err .badFormat
            | [] => .err .badFormat
          | none => .ok (outValue, rest)
      else .err .badFormat
    else .err .badFormat

/-- C++ indexing `DaysInMonth[i]`: out of bounds (undefined behavior) unless
`0 ≤ i < 12`. -/
def daysInMonthAt (i : Int) : ParseOutcome Int :=
  if 0 ≤ i ∧ i < 12 then .ok (DaysInMonth.getD i.toNat 0) else .oob

/-- The `parseDatetime` lambda of `To(std::basic_string_view, tm_ext&)`. -/
def parseDatetime (pos : List Char) : ParseOutcome tm_ext :=
  (parseDatetimePart pos 0 (some '-')).bind fun (year, pos) =>
  (parseDatetimePart pos 12 (some '-')).bind fun (mon, pos) =>
  (daysInMonthAt (mon - 1)).bind fun dim =>
  (parseDatetimePart pos dim (some 'T')).bind fun (mday, pos) =>
  (parseDatetimePart pos 23 (some ':')).bind fun (hour, pos) =>
  (parseDatetimePart pos 59 (some ':')).bind fun (minute, pos) =>
  (parseDatetimePart pos 59 none).bind fun (sec, pos) =>
  match pos with
  | [] => .oob
  | sym :: rest =>
    if sym = '.' then
      (parseDatetimePart rest 999 (some 'Z')).bind fun (ms, _) =>
      .ok ⟨⟨year, mon, mday, hour, minute, sec⟩, ms⟩
    else if sym = 'Z' then
      .ok ⟨⟨year, mon, mday, hour, minute, sec⟩, 0⟩
    else .err .badFormat

/-! ## Embedding of the `snprintf` rendering -/

def digitChar (d : Nat) : Char := Char.ofNat (48 + d)

/-- Decimal digits of `n` (most significant first), `[]` for 0; fuel-based so
that it evaluates by kernel reduction. -/
def natDigitsAux : Nat → Nat → List Char
  | 0, _ => []
  | fuel + 1, n =>
    if n = 0 then [] else natDigitsAux fuel (n / 10) ++ [digitChar (n % 10)]

def natDigits (n : Nat) : List Char :=
  if n = 0 then ['0'] else natDigitsAux 30 n

def zeroPad (w : Nat) (s : List Char) : List Char :=
  List.replicate (w - s.length) '0' ++ s

/-- `%0wd` of `snprintf` (minimum width `w`, zero padded, sign included). -/
def formatFixed (w : Nat) (v : Int) : List Char :=
  if v < 0 then '-' :: zeroPad (w - 1) (natDigits (-v).toNat)
  else zeroPad w (natDigits v.toNat)

/-- `To(const tm&, string&)`: `"%04d-%02d-%02dT%02d:%02d:%02dZ"`. -/
def renderTm (u : tm) : List Char :=
  formatFixed 4 u.tm_year ++ '-' :: formatFixed 2 u.tm_mon
    ++ '-' :: formatFixed 2 u.tm_mday ++ 'T' :: formatFixed 2 u.tm_hour
    ++ ':' :: formatFixed 2 u.tm_min ++ ':' :: formatFixed 2 u.tm_sec ++ ['Z']

/-- `To(const tm_ext&, string&)`: `"%04d-%02d-%02dT%02d:%02d:%02d.%03dZ"`. -/
def renderTmExt (u : tm_ext) : List Char :=
  formatFixed 4 u.tm_year ++ '-' :: formatFixed 2 u.tm_mon
    ++ '-' :: formatFixed 2 u.tm_mday ++ 'T' :: formatFixed 2 u.tm_hour
    ++ ':' :: formatFixed 2 u.tm_min ++ ':' :: formatFixed 2 u.tm_sec
    ++ '.' :: formatFixed 3 u.ms ++ ['Z']

/-! ## Lemmas: rendering produces digit blocks that parse back -/

lemma digitChar_isDigit (d : Nat) (h : d < 10) : (digitChar d).isDigit = true := by
  interval_cases d <;> decide

lemma digitChar_toNat (d : Nat) (h : d < 10) : (digitChar d).toNat = 48 + d := by
  interval_cases d <;> decide

lemma digitsToNat_append_singleton (a : List Char) (c : Char) :
    digitsToNat (a ++ [c]) = 10 * digitsToNat a + (c.toNat - 48) := by
  simp [digitsToNat, List.foldl_append]

lemma natDigitsAux_isDigit :
    ∀ fuel n, ∀ c ∈ natDigitsAux fuel n, c.isDigit = true := by
  intro fuel
  induction fuel with
  | zero => intro n c hc; simp [natDigitsAux] at hc
  | succ f ih =>
    intro n c hc
    rw [natDigitsAux] at hc
    split at hc
    · simp at hc
    · simp only [List.mem_append, List.mem_singleton] at hc
      rcases hc with h | h
      · exact ih _ c h
      · subst h; exact digitChar_isDigit _ (Nat.mod_lt _ (by norm_num))

lemma natDigitsAux_val :
    ∀ fuel n, n < 10 ^ fuel → digitsToNat (natDigitsAux fuel n) = n := by
  intro fuel
  induction fuel with
  | zero => intro n h; interval_cases n; simp [natDigitsAux, digitsToNat]
  | succ f ih =>
    intro n h
    rw [natDigitsAux]
    split
    · next hz => subst hz; simp [digitsToNat]
    · next hz =>
      rw [digitsToNat_append_singleton, ih _ (by
          have h10 : (10:Nat) ^ (f + 1) = 10 ^ f * 10 := by ring
          omega)]
      rw [digitChar_toNat _ (Nat.mod_lt _ (by norm_num))]
      omega

lemma natDigitsAux_len :
    ∀ fuel n k, n < 10 ^ k → k ≤ fuel → (natDigitsAux fuel n).length ≤ k := by
  intro fuel
  induction fuel with
  | zero => intro n k h hk; interval_cases k; interval_cases n; simp [natDigitsAux]
  | succ f ih =>
    intro n k h hk
    rw [natDigitsAux]
    split
    · simp
    · next hz =>
      have hk1 : 1 ≤ k := by
        rcases Nat.eq_zero_or_pos k with h0 | h0
        · subst h0; omega
        · exact h0
      simp only [List.length_append, List.length_singleton]
      have := ih (n / 10) (k - 1) (by
        have h10 : (10:Nat) ^ k = 10 ^ (k - 1) * 10 := by
          rw [← pow_succ]; congr 1; omega
        omega) (by omega)
      omega

lemma natDigits_isDigit (n : Nat) : ∀ c ∈ natDigits n, c.isDigit = true := by
  intro c hc
  unfold natDigits at hc
  split at hc
  · simp at hc; subst hc; decide
  · exact natDigitsAux_isDigit _ _ c hc

lemma natDigits_val (n : Nat) (h : n < 10 ^ 30) : digitsToNat (natDigits n) = n := by
  unfold natDigits
  split
  · subst n; decide
  · exact natDigitsAux_val _ _ h

lemma natDigits_len (n k : Nat) (h : n < 10 ^ k) (hk : 1 ≤ k) (hk30 : k ≤ 30) :
    (natDigits n).length ≤ k := by
  unfold natDigits
  split
  · simpa using hk
  · exact natDigitsAux_len _ _ k h hk30

lemma digitsToNat_zeros_append (k : Nat) (s : List Char) :
    digitsToNat (List.replicate k '0' ++ s) = digitsToNat s := by
  induction k with
  | zero => simp
  | succ n ih =>
    have : List.replicate (n + 1) '0' ++ s = '0' :: (List.replicate n '0' ++ s) := by
      simp [List.replicate_succ]
    rw [this]
    unfold digitsToNat at *
    simpa using ih

lemma zeroPad_isDigit (w : Nat) (s : List Char) (hs : ∀ c ∈ s, c.isDigit = true) :
    ∀ c ∈ zeroPad w s, c.isDigit = true := by
  intro c hc
  unfold zeroPad at hc
  rw [List.mem_append] at hc
  rcases hc with h | h
  · rw [List.eq_of_mem_replicate h]; decide
  · exact hs c h

lemma zeroPad_val (w : Nat) (s : List Char) :
    digitsToNat (zeroPad w s) = digitsToNat s := by
  unfold zeroPad; exact digitsToNat_zeros_append _ _

lemma zeroPad_length (w : Nat) (s : List Char) (h : s.length ≤ w) :
    (zeroPad w s).length = w := by
  unfold zeroPad; simp; omega

/-- `formatFixed w v` for `0 ≤ v < 10 ^ w`: exactly `w` digit characters whose
value reads back as `v`. -/
lemma formatFixed_spec (w : Nat) (v : Int) (h0 : 0 ≤ v) (h1 : v < 10 ^ w)
    (hw : 1 ≤ w) (hw30 : w ≤ 30) :
    (∀ c ∈ formatFixed w v, c.isDigit = true) ∧
      (formatFixed w v).length = w ∧
      digitsToNat (formatFixed w v) = v.toNat := by
  unfold formatFixed
  rw [if_neg (by omega)]
  have hvn : v.toNat < 10 ^ w := by
    have : ((10:Int) ^ w) = ((10 ^ w : Nat) : Int) := by push_cast; ring
    omega
  refine ⟨zeroPad_isDigit _ _ (natDigits_isDigit _), ?_, ?_⟩
  · exact zeroPad_length _ _ (natDigits_len _ w hvn hw hw30)
  · rw [zeroPad_val]
    exact natDigits_val _ (lt_of_lt_of_le hvn (Nat.pow_le_pow_right (by norm_num) hw30))

lemma takeWhile_digits_append (ds : List Char) (c : Char) (r : List Char)
    (hds : ∀ x ∈ ds, x.isDigit = true) (hc : c.isDigit = false) :
    (ds ++ c :: r).takeWhile Char.isDigit = ds ∧
      (ds ++ c :: r).dropWhile Char.isDigit = c :: r := by
  induction ds with
  | nil => simp [List.takeWhile, List.dropWhile, hc]
  | cons a as ih =>
    have ha : a.isDigit = true := hds a (by simp)
    have ihr := ih (fun x hx => hds x (by simp [hx]))
    simp [List.takeWhile, List.dropWhile, ha, ihr.1, ihr.2]

/-- A rendered fixed-width block followed by its delimiter parses back. -/
lemma parseDatetimePart_block (w : Nat) (v mv : Int) (d : Char) (rest : List Char)
    (h0 : 0 ≤ v) (h1 : v < 10 ^ w) (hw : 1 ≤ w) (hw9 : w ≤ 9)
    (hd : d.isDigit = false)
    (hmv : mv = 0 ∨ v ≤ mv) :
    parseDatetimePart (formatFixed w v ++ d :: rest) mv (some d) = .ok (v, rest) := by
  obtain ⟨hdig, hlen, hval⟩ := formatFixed_spec w v h0 h1 hw (by omega)
  obtain ⟨htake, hdrop⟩ := takeWhile_digits_append (formatFixed w v) d rest hdig hd
  have hne : formatFixed w v ≠ [] := by
    intro hnil; rw [hnil] at hlen; simp at hlen; omega
  obtain ⟨c, cs, hcs⟩ := List.exists_cons_of_ne_nil hne
  rw [hcs] at htake hdrop hdig hval ⊢
  have hcd : c.isDigit = true := hdig c (by simp)
  have hvN : v.toNat ≤ 2147483647 := by
    have h9 : (10:Int) ^ w ≤ 10 ^ 9 := by
      apply pow_le_pow_right (by norm_num) hw9
    omega
  have hvI : ((digitsToNat (c :: cs) : Nat) : Int) = v := by
    rw [hval]; exact Int.toNat_of_nonneg h0
  simp only [parseDatetimePart, htake, hdrop, hcd, if_true]
  rw [hval, if_pos hvN, if_neg (by omega)]
  have hsup : v ⊔ 0 = v := sup_eq_left.mpr h0
  simp [List.cons_append, hcd, hsup]

lemma takeWhile_digits_prefix (ds rest : List Char)
    (hds : ∀ x ∈ ds, x.isDigit = true)
    (hr : ∀ c, rest.head? = some c → c.isDigit = false) :
    (ds ++ rest).takeWhile Char.isDigit = ds ∧
      (ds ++ rest).dropWhile Char.isDigit = rest := by
  match rest with
  | [] =>
    simp only [List.append_nil]
    constructor
    · exact List.takeWhile_eq_self_iff.mpr (by intro x hx; simpa using hds x hx)
    · exact List.dropWhile_eq_nil_iff.mpr (by intro x hx; simpa using hds x hx)
  | c :: r => exact takeWhile_digits_append ds c r hds (hr c rfl)

/-- A rendered fixed-width block parsed without a delimiter stops at the
first non-digit. -/
lemma parseDatetimePart_block_none (w : Nat) (v mv : Int) (rest : List Char)
    (h0 : 0 ≤ v) (h1 : v < 10 ^ w) (hw : 1 ≤ w) (hw9 : w ≤ 9)
    (hrest : ∀ c, rest.head? = some c → c.isDigit = false)
    (hmv : mv = 0 ∨ v ≤ mv) :
    parseDatetimePart (formatFixed w v ++ rest) mv none = .ok (v, rest) := by
  obtain ⟨hdig, hlen, hval⟩ := formatFixed_spec w v h0 h1 hw (by omega)
  obtain ⟨htake, hdrop⟩ := takeWhile_digits_prefix (formatFixed w v) rest hdig hrest
  have hne : formatFixed w v ≠ [] := by
    intro hnil; rw [hnil] at hlen; simp at hlen; omega
  obtain ⟨c, cs, hcs⟩ := List.exists_cons_of_ne_nil hne
  rw [hcs] at htake hdrop hdig hval ⊢
  have hcd : c.isDigit = true := hdig c (by simp)
  have hvN : v.toNat ≤ 2147483647 := by
    have h9 : (10:Int) ^ w ≤ 10 ^ 9 := by
      apply pow_le_pow_right (by norm_num) hw9
    omega
  simp only [parseDatetimePart, htake, hdrop, hcd, if_true]
  rw [hval, if_pos hvN, if_neg (by omega)]
  have hsup : v ⊔ 0 = v := sup_eq_left.mpr h0
  simp [List.cons_append, hcd, hsup]

lemma daysInMonth_getD_le (i : Nat) : DaysInMonth.getD i 0 ≤ 31 := by
  rcases lt_or_le i 12 with h | h
  · interval_cases i <;> decide
  · rw [List.getD_eq_default]
    · norm_num
    · simpa [DaysInMonth] using h

lemma daysInMonthAt_ok (i : Int) (h0 : 0 ≤ i) (h1 : i < 12) :
    daysInMonthAt i = .ok (DaysInMonth.getD i.toNat 0) := by
  unfold daysInMonthAt
  rw [if_pos ⟨h0, h1⟩]

/-- Parsing a string rendered by `To(tm, string)` recovers the fields (with
milliseconds 0). -/
lemma parseDatetime_renderTm (u : tm)
    (hy0 : 0 ≤ u.tm_year) (hy1 : u.tm_year ≤ 9999)
    (hm0 : 1 ≤ u.tm_mon) (hm1 : u.tm_mon ≤ 12)
    (hd0 : 0 ≤ u.tm_mday)
    (hd1 : u.tm_mday ≤ DaysInMonth.getD (u.tm_mon - 1).toNat 0)
    (hh0 : 0 ≤ u.tm_hour) (hh1 : u.tm_hour ≤ 23)
    (hmi0 : 0 ≤ u.tm_min) (hmi1 : u.tm_min ≤ 59)
    (hs0 : 0 ≤ u.tm_sec) (hs1 : u.tm_sec ≤ 59) :
    parseDatetime (renderTm u) = .ok ⟨u, 0⟩ := by
  have hdm := daysInMonth_getD_le (u.tm_mon - 1).toNat
  unfold renderTm parseDatetime
  simp only [List.append_assoc, List.cons_append]
  rw [parseDatetimePart_block 4 u.tm_year 0 '-' _ hy0 (by norm_num; omega)
      (by norm_num) (by norm_num) (by decide) (Or.inl rfl)]
  simp only [ParseOutcome.bind]
  rw [parseDatetimePart_block 2 u.tm_mon 12 '-' _ (by omega) (by norm_num; omega)
      (by norm_num) (by norm_num) (by decide) (Or.inr hm1)]
  simp only [ParseOutcome.bind]
  rw [daysInMonthAt_ok _ (by omega) (by omega)]
  simp only [ParseOutcome.bind]
  rw [parseDatetimePart_block 2 u.tm_mday _ 'T' _ hd0 (by norm_num; omega)
      (by norm_num) (by norm_num) (by decide) (Or.inr hd1)]
  simp only [ParseOutcome.bind]
  rw [parseDatetimePart_block 2 u.tm_hour 23 ':' _ hh0 (by norm_num; omega)
      (by norm_num) (by norm_num) (by decide) (Or.inr hh1)]
  simp only [ParseOutcome.bind]
  rw [parseDatetimePart_block 2 u.tm_min 59 ':' _ hmi0 (by norm_num; omega)
      (by norm_num) (by norm_num) (by decide) (Or.inr hmi1)]
  simp only [ParseOutcome.bind]
  rw [parseDatetimePart_block_none 2 u.tm_sec 59 _ hs0 (by norm_num; omega)
      (by norm_num) (by norm_num) (by intro c hc; simp at hc; subst hc; decide)
      (Or.inr hs1)]
  simp [ParseOutcome.bind]

example : True := trivial

/-- Parsing a string rendered by `To(tm_ext, string)` recovers the fields. -/
lemma parseDatetime_renderTmExt (u : tm_ext)
    (hy0 : 0 ≤ u.tm_year) (hy1 : u.tm_year ≤ 9999)
    (hm0 : 1 ≤ u.tm_mon) (hm1 : u.tm_mon ≤ 12)
    (hd0 : 0 ≤ u.tm_mday)
    (hd1 : u.tm_mday ≤ DaysInMonth.getD (u.tm_mon - 1).toNat 0)
    (hh0 : 0 ≤ u.tm_hour) (hh1 : u.tm_hour ≤ 23)
    (hmi0 : 0 ≤ u.tm_min) (hmi1 : u.tm_min ≤ 59)
    (hs0 : 0 ≤ u.tm_sec) (hs1 : u.tm_sec ≤ 59)
    (hms0 : 0 ≤ u.ms) (hms1 : u.ms ≤ 999) :
    parseDatetime (renderTmExt u) = .ok u := by
  have hdm := daysInMonth_getD_le (u.tm_mon - 1).toNat
  unfold renderTmExt parseDatetime
  simp only [List.append_assoc, List.cons_append]
  rw [parseDatetimePart_block 4 u.tm_year 0 '-' _ hy0 (by norm_num; omega)
      (by norm_num) (by norm_num) (by decide) (Or.inl rfl)]
  simp only [ParseOutcome.bind]
  rw [parseDatetimePart_block 2 u.tm_mon 12 '-' _ (by omega) (by norm_num; omega)
      (by norm_num) (by norm_num) (by decide) (Or.inr hm1)]
  simp only [ParseOutcome.bind]
  rw [daysInMonthAt_ok _ (by omega) (by omega)]
  simp only [ParseOutcome.bind]
  rw [parseDatetimePart_block 2 u.tm_mday _ 'T' _ hd0 (by norm_num; omega)
      (by norm_num) (by norm_num) (by decide) (Or.inr hd1)]
  simp only [ParseOutcome.bind]
  rw [parseDatetimePart_block 2 u.tm_hour 23 ':' _ hh0 (by norm_num; omega)
      (by norm_num) (by norm_num) (by decide) (Or.inr hh1)]
  simp only [ParseOutcome.bind]
  rw [parseDatetimePart_block 2 u.tm_min 59 ':' _ hmi0 (by norm_num; omega)
      (by norm_num) (by norm_num) (by decide) (Or.inr hmi1)]
  simp only [ParseOutcome.bind]
  rw [parseDatetimePart_block_none 2 u.tm_sec 59 _ hs0 (by norm_num; omega)
      (by norm_num) (by norm_num) (by intro c hc; simp at hc; subst hc; decide)
      (Or.inr hs1)]
  simp only [ParseOutcome.bind, if_true]
  rw [parseDatetimePart_block 3 u.ms 999 'Z' _ hms0 (by norm_num; omega)
      (by norm_num) (by norm_num) (by decide) (Or.inr hms1)]

/-! ## `To(string_view, time_point&)` / `To(time_point, string&)` -/

/-- `int64` bounds of the millisecond-resolution time_point representation. -/
def minTpMs : Int := -9223372036854775808
def maxTpMs : Int := 9223372036854775807

/-- `time_point_cast<seconds>(max())`: truncating conversion. -/
def maxSecTp : Int := maxTpMs.tdiv 1000

/-- `time_point_cast<seconds>(min())`: truncating conversion. -/
def minSecTp : Int := minTpMs.tdiv 1000

/-- Signed 64-bit wrap-around of the representation arithmetic. -/
def wrap64 (x : Int) : Int :=
  (x + 9223372036854775808) % 18446744073709551616 - 9223372036854775808

inductive ChronoError where
  | parseError (e : DatetimeParseError)
  | outOfRangeError
  | oobAccess
deriving DecidableEq, Repr

instance instDecEqExcept {ε α : Type} [DecidableEq ε] [DecidableEq α] :
    DecidableEq (Except ε α) := fun x y =>
  match x, y with
  | .ok a, .ok b =>
    if h : a = b then .isTrue (by rw [h])
    else .isFalse (by intro hh; cases hh; exact h rfl)
  | .ok _, .error _ => .isFalse (by intro hh; cases hh)
  | .error _, .ok _ => .isFalse (by intro hh; cases hh)
  | .error a, .error b =>
    if h : a = b then .isTrue (by rw [h])
    else .isFalse (by intro hh; cases hh; exact h rfl)

def toTimePointMs (s : List Char) : Except ChronoError Int :=
  match parseDatetime s with
  | .oob => .error .oobAccess
  | .err e => .error (.parseError e)
  | .ok tmExt =>
    let time := UtcToUnixTime tmExt.totm
    if maxSecTp < time ∨ time < minSecTp then .error .outOfRangeError
    else
      let out := wrap64 (time * 1000)
      if tmExt.ms ≠ 0 then .ok (wrap64 (out + tmExt.ms)) else .ok out

def encodeTimePointMs (tp : Int) : List Char :=
  let time := tp.fdiv 1000
  let ms := tp - time * 1000
  if ms ≠ 0 then
    let ms2 := if ms < 0 then ms + 1000 else ms
    renderTmExt ⟨UnixTimeToUtc time, ms2⟩
  else renderTm (UnixTimeToUtc time)

lemma wrap64_eq_self (x : Int) (h0 : minTpMs ≤ x) (h1 : x ≤ maxTpMs) :
    wrap64 x = x := by
  unfold wrap64 minTpMs maxTpMs at *
  omega

lemma maxSecTp_val : maxSecTp = 9223372036854775 := by decide

lemma minSecTp_val : minSecTp = -9223372036854775 := by decide

lemma ParseOutcome.bind_eq_ok {α β : Type} {o : ParseOutcome α}
    {f : α → ParseOutcome β} {r : β} (h : o.bind f = .ok r) :
    ∃ a, o = .ok a ∧ f a = .ok r := by
  cases o with
  | ok v => exact ⟨v, rfl, h⟩
  | err e => simp [ParseOutcome.bind] at h
  | oob => simp [ParseOutcome.bind] at h

/-- On success, `parseDatetimePart` returns a non-negative value that respects
a non-zero `maxValue` bound. -/
lemma parseDatetimePart_ok (buf : List Char) (mv : Int) (d : Option Char)
    (v : Int) (rest : List Char)
    (h : parseDatetimePart buf mv d = .ok (v, rest)) :
    0 ≤ v ∧ (mv ≠ 0 → v ≤ mv) := by
  match buf with
  | [] => simp [parseDatetimePart] at h
  | c :: cs =>
    simp only [parseDatetimePart] at h
    split_ifs at h with h1 h2 h3
    all_goals try cases h
    match d with
    | some dc =>
      match hr : (c :: cs).dropWhile Char.isDigit with
      | [] =>
        rw [hr] at h
        dsimp only at h
        cases h
      | r :: rs =>
        rw [hr] at h
        dsimp only at h
        split_ifs at h with h4
        cases h
        exact ⟨by positivity, fun hmv => by omega⟩
    | none =>
      dsimp only at h
      cases h
      exact ⟨by positivity, fun hmv => by omega⟩

/-- On success of `daysInMonthAt`, the index was in table range. -/
lemma daysInMonthAt_ok_inv (i : Int) (dim : Int) (h : daysInMonthAt i = .ok dim) :
    0 ≤ i ∧ i < 12 ∧ dim = DaysInMonth.getD i.toNat 0 := by
  unfold daysInMonthAt at h
  split_ifs at h with h1
  cases h
  exact ⟨h1.1, h1.2, rfl⟩

lemma daysInMonth_getD_pos (i : Nat) (h : i < 12) : 0 < DaysInMonth.getD i 0 := by
  interval_cases i <;> decide

/-- Amended bounds: every successfully parsed datetime satisfies the checks
the parser actually performs (digits only, upper bounds inclusive; the lower
bounds 1 of month and day are not enforced). -/
lemma parseDatetime_ok_bounds (s : List Char) (f : tm_ext)
    (h : parseDatetime s = .ok f) :
    0 ≤ f.tm_year ∧
      1 ≤ f.tm_mon ∧ f.tm_mon ≤ 12 ∧
      0 ≤ f.tm_mday ∧ f.tm_mday ≤ DaysInMonth.getD (f.tm_mon - 1).toNat 0 ∧
      0 ≤ f.tm_hour ∧ f.tm_hour ≤ 23 ∧
      0 ≤ f.tm_min ∧ f.tm_min ≤ 59 ∧
      0 ≤ f.tm_sec ∧ f.tm_sec ≤ 59 ∧
      0 ≤ f.ms ∧ f.ms ≤ 999 := by
  unfold parseDatetime at h
  obtain ⟨⟨year, pos1⟩, hp1, h⟩ := ParseOutcome.bind_eq_ok h
  obtain ⟨⟨mon, pos2⟩, hp2, h⟩ := ParseOutcome.bind_eq_ok h
  obtain ⟨dim, hdim, h⟩ := ParseOutcome.bind_eq_ok h
  obtain ⟨⟨mday, pos3⟩, hp3, h⟩ := ParseOutcome.bind_eq_ok h
  obtain ⟨⟨hour, pos4⟩, hp4, h⟩ := ParseOutcome.bind_eq_ok h
  obtain ⟨⟨minute, pos5⟩, hp5, h⟩ := ParseOutcome.bind_eq_ok h
  obtain ⟨⟨sec, pos6⟩, hp6, h⟩ := ParseOutcome.bind_eq_ok h
  obtain ⟨hy, -⟩ := parseDatetimePart_ok _ _ _ _ _ hp1
  obtain ⟨hm0, hm1⟩ := parseDatetimePart_ok _ _ _ _ _ hp2
  obtain ⟨hi0, hi1, hdimv⟩ := daysInMonthAt_ok_inv _ _ hdim
  obtain ⟨hd0, hd1⟩ := parseDatetimePart_ok _ _ _ _ _ hp3
  obtain ⟨hh0, hh1⟩ := parseDatetimePart_ok _ _ _ _ _ hp4
  obtain ⟨hmi0, hmi1⟩ := parseDatetimePart_ok _ _ _ _ _ hp5
  obtain ⟨hs0, hs1⟩ := parseDatetimePart_ok _ _ _ _ _ hp6
  have hdpos := daysInMonth_getD_pos (mon - 1).toNat (by omega)
  have hdim_ne : dim ≠ 0 := by omega
  have hdmon : mday ≤ DaysInMonth.getD (mon - 1).toNat 0 := by
    rw [← hdimv]; exact hd1 hdim_ne
  match pos6 with
  | [] => cases h
  | sym :: rest =>
    dsimp only at h
    split_ifs at h with hdot hz
    · obtain ⟨⟨ms, rest2⟩, hpms, h⟩ := ParseOutcome.bind_eq_ok h
      obtain ⟨hms0, hms1⟩ := parseDatetimePart_ok _ _ _ _ _ hpms
      cases h
      dsimp only
      exact ⟨hy, by omega, by omega, hd0, hdmon, hh0, by omega, hmi0, by omega,
        hs0, by omega, hms0, by omega⟩
    · cases h
      dsimp only
      exact ⟨hy, by omega, by omega, hd0, hdmon, hh0, by omega, hmi0, by omega,
        hs0, by omega, le_refl 0, by norm_num⟩


/-! ## Claim theorems for the ISO-8601 codec -/

lemma civilDaysInMonth_le_table (year mon : Int) (h1 : 1 ≤ mon) (h2 : mon ≤ 12) :
    civilDaysInMonth year mon ≤ DaysInMonth.getD (mon - 1).toNat 0 := by
  have hc := civilLeap_bounds year
  unfold civilDaysInMonth
  interval_cases mon <;> simp [DaysInMonth] <;> omega

/-- **C2.** Every valid ISO-8601 UTC string (a canonically rendered existing
civil datetime whose fractional part is present, with exactly 3 digits, iff
`ms > 0`, and whose instant fits the millisecond time_point) decodes to a
time_point which re-encodes to exactly the same string. -/
theorem iso8601_encode_decode_roundtrip (F : tm_ext) (s : List Char)
    (hv : ValidTm F.totm)
    (hy0 : 0 ≤ F.tm_year) (hy1 : F.tm_year ≤ 9999)
    (hms0 : 0 ≤ F.ms) (hms1 : F.ms ≤ 999)
    (hlo : minSecTp ≤ UtcToUnixTime F.totm)
    (hhi : UtcToUnixTime F.totm ≤ maxSecTp)
    (hfit : UtcToUnixTime F.totm * 1000 + F.ms ≤ maxTpMs)
    (hfit2 : minTpMs ≤ UtcToUnixTime F.totm * 1000)
    (hs : s = if F.ms = 0 then renderTm F.totm else renderTmExt F) :
    toTimePointMs s = .ok (UtcToUnixTime F.totm * 1000 + F.ms) ∧
      encodeTimePointMs (UtcToUnixTime F.totm * 1000 + F.ms) = s := by
  obtain ⟨hm1, hm2, hd1, hd2, hh1, hh2, hmi1, hmi2, hs1, hs2⟩ := hv
  have htab : F.totm.tm_mday ≤ DaysInMonth.getD (F.totm.tm_mon - 1).toNat 0 :=
    le_trans hd2 (civilDaysInMonth_le_table _ _ hm1 hm2)
  have hw1 : wrap64 (UtcToUnixTime F.totm * 1000) = UtcToUnixTime F.totm * 1000 :=
    wrap64_eq_self _ hfit2 (by omega)
  constructor
  · -- decoding
    subst hs
    rcases eq_or_ne F.ms 0 with hz | hnz
    · rw [if_pos hz]
      unfold toTimePointMs
      rw [parseDatetime_renderTm F.totm hy0 hy1 hm1 hm2 (by omega) htab
          hh1 hh2 hmi1 hmi2 hs1 hs2]
      dsimp only
      rw [if_neg (by omega)]
      simp only [hw1]
      rw [if_neg (by omega)]
      rw [hz, add_zero]
    · rw [if_neg hnz]
      unfold toTimePointMs
      rw [parseDatetime_renderTmExt F hy0 hy1 hm1 hm2 (by omega) htab
          hh1 hh2 hmi1 hmi2 hs1 hs2 hms0 hms1]
      dsimp only
      rw [if_neg (by omega)]
      simp only [hw1]
      rw [if_pos hnz]
      rw [wrap64_eq_self _ (by omega) (by omega)]
  · -- encoding
    unfold encodeTimePointMs
    dsimp only
    rw [Int.fdiv_eq_ediv _ (by norm_num)]
    have hq : (UtcToUnixTime F.totm * 1000 + F.ms) / 1000 = UtcToUnixTime F.totm := by
      omega
    rw [hq]
    have hr : UtcToUnixTime F.totm * 1000 + F.ms - UtcToUnixTime F.totm * 1000
        = F.ms := by ring
    rw [hr]
    have hround := UtcToUnixTime_UnixTimeToUtc_roundtrip F.totm
      ⟨hm1, hm2, hd1, hd2, hh1, hh2, hmi1, hmi2, hs1, hs2⟩
    rcases eq_or_ne F.ms 0 with hz | hnz
    · rw [if_neg (by omega), hround, hs, if_pos hz]
    · rw [if_pos hnz, if_neg (by omega), hround, hs, if_neg hnz]

/-- Witness for C2 at 2023-07-14T22:44:51.925Z. -/
theorem iso8601_encode_decode_roundtrip_witness :
    toTimePointMs "2023-07-14T22:44:51.925Z".toList = .ok 1689374691925 ∧
      encodeTimePointMs 1689374691925 = "2023-07-14T22:44:51.925Z".toList := by
  have h := iso8601_encode_decode_roundtrip ⟨⟨2023, 7, 14, 22, 44, 51⟩, 925⟩
    "2023-07-14T22:44:51.925Z".toList (by decide) (by decide) (by decide)
    (by decide) (by decide) (by decide) (by decide) (by decide) (by decide)
    (by decide)
  exact h

/-- **C3 (amended).** The datetime decoder enforces only the documented upper
bounds: a successfully parsed datetime has non-negative fields with
`month ≤ 12`, `day ≤ DaysInMonth[month-1]` (February bounded by 29 in every
year), `hour ≤ 23`, `minute, second ≤ 59` and `ms ≤ 999`; the lower bounds 1
of month and day are not enforced (0 is accepted), and bound violations or
misplaced delimiters raise the parser's exceptions. -/
theorem parseDatetime_enforced_bounds (s : List Char) (f : tm_ext)
    (h : parseDatetime s = .ok f) :
    0 ≤ f.tm_year ∧
      1 ≤ f.tm_mon ∧ f.tm_mon ≤ 12 ∧
      0 ≤ f.tm_mday ∧ f.tm_mday ≤ DaysInMonth.getD (f.tm_mon - 1).toNat 0 ∧
      0 ≤ f.tm_hour ∧ f.tm_hour ≤ 23 ∧
      0 ≤ f.tm_min ∧ f.tm_min ≤ 59 ∧
      0 ≤ f.tm_sec ∧ f.tm_sec ≤ 59 ∧
      0 ≤ f.ms ∧ f.ms ≤ 999 :=
  parseDatetime_ok_bounds s f h

/-- Witness for the amended C3 bounds at a parsed concrete string. -/
theorem parseDatetime_enforced_bounds_witness :
    0 ≤ ((⟨⟨2023, 7, 14, 22, 44, 51⟩, 925⟩ : tm_ext)).tm_year ∧
      1 ≤ ((⟨⟨2023, 7, 14, 22, 44, 51⟩, 925⟩ : tm_ext)).tm_mon ∧
      ((⟨⟨2023, 7, 14, 22, 44, 51⟩, 925⟩ : tm_ext)).tm_mon ≤ 12 ∧
      0 ≤ ((⟨⟨2023, 7, 14, 22, 44, 51⟩, 925⟩ : tm_ext)).tm_mday ∧
      ((⟨⟨2023, 7, 14, 22, 44, 51⟩, 925⟩ : tm_ext)).tm_mday
        ≤ DaysInMonth.getD (((⟨⟨2023, 7, 14, 22, 44, 51⟩, 925⟩ : tm_ext)).tm_mon - 1).toNat 0 ∧
      0 ≤ ((⟨⟨2023, 7, 14, 22, 44, 51⟩, 925⟩ : tm_ext)).tm_hour ∧
      ((⟨⟨2023, 7, 14, 22, 44, 51⟩, 925⟩ : tm_ext)).tm_hour ≤ 23 ∧
      0 ≤ ((⟨⟨2023, 7, 14, 22, 44, 51⟩, 925⟩ : tm_ext)).tm_min ∧
      ((⟨⟨2023, 7, 14, 22, 44, 51⟩, 925⟩ : tm_ext)).tm_min ≤ 59 ∧
      0 ≤ ((⟨⟨2023, 7, 14, 22, 44, 51⟩, 925⟩ : tm_ext)).tm_sec ∧
      ((⟨⟨2023, 7, 14, 22, 44, 51⟩, 925⟩ : tm_ext)).tm_sec ≤ 59 ∧
      0 ≤ ((⟨⟨2023, 7, 14, 22, 44, 51⟩, 925⟩ : tm_ext)).ms ∧
      ((⟨⟨2023, 7, 14, 22, 44, 51⟩, 925⟩ : tm_ext)).ms ≤ 999 :=
  parseDatetime_enforced_bounds "2023-07-14T22:44:51.925Z".toList
    ⟨⟨2023, 7, 14, 22, 44, 51⟩, 925⟩ (by decide)

/-- **C3 (counterexample).** Day 0 violates the claimed bounds (day must be at
least 1), yet the decoder accepts `2023-01-00T00:00:00Z` without any error. -/
theorem parseDatetime_accepts_day_zero :
    parseDatetime "2023-01-00T00:00:00Z".toList
      = .ok ⟨⟨2023, 1, 0, 0, 0, 0⟩, 0⟩ := by decide

/-- **C10.** The claimed in-bounds behavior fails: for a month field of 0 the
parser evaluates `DaysInMonth[-1]`, an out-of-bounds read (undefined
behavior), instead of throwing a parsing error. -/
theorem parseDatetime_month_zero_oob :
    parseDatetime "0000-00-01T00:00:00Z".toList = .oob := by decide

/-! ### C8: the nanosecond-resolution time_point instantiation

`To(string_view, time_point&)` is generic over the target `time_point`. At a
nanosecond-resolution `int64` instantiation (e.g. `system_clock` on Linux),
`maxSec = time_point_cast<seconds>(max).count() = 9223372036` and
`minSec = -9223372036` (truncation toward zero), both well inside the domain
where `UtcToUnixTime`'s `int` arithmetic is exact, so the whole-second range
check is reachable. The final `out += milliseconds(ms)` is unchecked `int64`
arithmetic: a result outside `[minTpNs, maxTpNs]` is signed overflow. -/

def nsPerSec : Int := 1000000000

def maxTpNs : Int := 9223372036854775807

def minTpNs : Int := -9223372036854775808

/-- `time_point_cast<seconds>(max)` of the nanosecond time_point. -/
def maxSecTpNs : Int := maxTpNs.tdiv nsPerSec

/-- `time_point_cast<seconds>(min)` of the nanosecond time_point. -/
def minSecTpNs : Int := minTpNs.tdiv nsPerSec

/-- Outcome of decoding into the nanosecond time_point: a value, the
out-of-range throw, a parse failure, or reaching undefined behaviour (an
out-of-range access in the parser, `int` overflow inside `UtcToUnixTime`, or
`int64` overflow in the final milliseconds addition). -/
inductive NsOutcome where
  | ok (ns : Int)
  | rangeError
  | parseError
  | ub
deriving DecidableEq, Repr

/-- `To(string_view, time_point&)` at the nanosecond instantiation: parse,
recompose the civil fields with the width-checked `UtcToUnixTime`
(`UtcToUnixTimeC`), check the whole-second range, build the time_point and,
when the parsed milliseconds are non-zero, add them with no further check. -/
def toTimePointNs (s : List Char) : NsOutcome :=
  match parseDatetime s with
  | .oob => .ub
  | .err _ => .parseError
  | .ok f =>
    match UtcToUnixTimeC f.totm with
    | none => .ub
    | some time =>
      if maxSecTpNs < time ∨ time < minSecTpNs then .rangeError
      else
        let out := time * nsPerSec
        if f.ms ≠ 0 then
          let out2 := out + f.ms * 1000000
          if minTpNs ≤ out2 ∧ out2 ≤ maxTpNs then .ok out2 else .ub
        else .ok out

/-- **C8.** The range check of the time_point conversion guards only the
whole-second value. At the nanosecond time_point's edge: the last wholly
representable second 2262-04-11T23:47:16Z decodes to its exact value; one
second later the conversion correctly fails with the out-of-range error; but
that same last second with a 999 ms fractional part passes the check and the
unchecked `out += milliseconds(ms)` overflows the 64-bit representation —
undefined behaviour instead of the claimed Range error. -/
theorem toTimePointNs_edge_ms_unchecked :
    toTimePointNs "2262-04-11T23:47:16Z".toList = .ok 9223372036000000000 ∧
    toTimePointNs "2263-01-01T00:00:00Z".toList = .rangeError ∧
    toTimePointNs "2262-04-11T23:47:16.999Z".toList = .ub := by decide

/-! ## Embedding of the archive layer (`bin_archive_stub.h`, `rapidjson_archive.h`) -/

/-- Serialization error codes (from `errors_handling.h`, as used in the sources). -/
inductive SerializationErrorCode where
  | OutOfRange
  | MismatchedTypes
  | Overflow
  | ParsingError
deriving DecidableEq, Repr

inductive OverflowNumberPolicy where
  | ThrowError
  | Skip
deriving DecidableEq, Repr

inductive MismatchedTypesPolicy where
  | ThrowError
  | Skip
deriving DecidableEq, Repr

/-- The two options `LoadFundamentalValue` reads. -/
structure SerializationOptions where
  overflowNumberPolicy : OverflowNumberPolicy
  mismatchedTypesPolicy : MismatchedTypesPolicy
deriving DecidableEq, Repr

/-- `BinTestIoData`: the tagged value of the binary archive stub
(`std::variant<nullptr_t, bool, int64_t, uint64_t, double, string,
CBinTimestamp, Object, Array>`). The `double` alternative carries its IEEE-754
bit pattern and the timestamp its raw payload; neither is interpreted here. -/
inductive BinTestIoData where
  | null
  | bool (b : Bool)
  | int64 (v : Int)
  | uint64 (v : Nat)
  | double (bits : Int)
  | str (s : String)
  | timestamp (raw : Int)
  | object (members : List (String × BinTestIoData))
  | array (elems : List BinTestIoData)

/-- Modelled from the spec: `Detail::SafeNumberCast` (only declared in these
sources; spec §4.3: loading into a narrower numeric type performs a
range-checked cast — if the value fits the target it is assigned and the load
succeeds, otherwise `OverflowNumberPolicy::ThrowError` raises an Overflow
error and `::Skip` leaves the target unmodified and reports the field as not
loaded). The integral target type is embedded as its range `[tMin, tMax]`. -/
def SafeNumberCast (src : Int) (target : Int) (tMin tMax : Int)
    (policy : OverflowNumberPolicy) :
    Except SerializationErrorCode (Bool × Int) :=
  if tMin ≤ src ∧ src ≤ tMax then .ok (true, src)
  else
    match policy with
    | .ThrowError => .error .Overflow
    | .Skip => .ok (false, target)

/-- `BinArchiveStubScopeBase::LoadFundamentalValue` for an integral target
type (embedded as the range `[tMin, tMax]`; `value` is the target field).
Returns whether the field was loaded and the new field value, or throws. -/
def LoadFundamentalValue (ioData : BinTestIoData) (value : Int)
    (tMin tMax : Int) (opts : SerializationOptions) :
    Except SerializationErrorCode (Bool × Int) :=
  match ioData with
  | .null => .ok (false, value)
  | .int64 v => SafeNumberCast v value tMin tMax opts.overflowNumberPolicy
  | .uint64 v => SafeNumberCast v value tMin tMax opts.overflowNumberPolicy
  | .bool b => SafeNumberCast (if b then 1 else 0) value tMin tMax opts.overflowNumberPolicy
  | _ =>
    match opts.mismatchedTypesPolicy with
    | .ThrowError => .error .MismatchedTypes
    | .Skip => .ok (false, value)

/-- `BinArchiveStubArrayScope::LoadNextItem` in Load mode: returns the element
at the cursor and advances it, or throws OutOfRange at the end. -/
def LoadNextItem (elems : List BinTestIoData) (mIndex : Nat) :
    Except SerializationErrorCode (BinTestIoData × Nat) :=
  if mIndex < elems.length then .ok (elems.getD mIndex .null, mIndex + 1)
  else .error .OutOfRange

/-- `k` successive `LoadNextItem` calls starting at cursor `idx`. -/
def loadItems (elems : List BinTestIoData) : Nat → Nat →
    Except SerializationErrorCode (List BinTestIoData)
  | 0, _ => .ok []
  | k + 1, idx =>
    match LoadNextItem elems idx with
    | .error e => .error e
    | .ok (x, idx2) =>
      match loadItems elems k idx2 with
      | .error e => .error e
      | .ok xs => .ok (x :: xs)

/-- Minimal RapidJson document node. -/
inductive RapidJsonNode where
  | null
  | jbool (b : Bool)
  | jnum (v : Int)
  | jstr (s : String)
  | jobject (members : List (String × RapidJsonNode))
  | jarray (elems : List RapidJsonNode)

/-- `RapidJsonArrayScope::NextElement`: returns null at the end of the array
(without advancing the iterator), otherwise the element under the iterator,
advancing it. -/
def NextElement (elems : List RapidJsonNode) (mValueIt : Nat) :
    Option (RapidJsonNode × Nat) :=
  if mValueIt = elems.length then none
  else some (elems.getD mValueIt .null, mValueIt + 1)

/-- `RapidJsonScopeBase::LoadValue` for an integral target: numbers are
assigned, anything else leaves the target untouched. -/
def rjLoadFundamentalValue (j : RapidJsonNode) (value : Int) : Int :=
  match j with
  | .jnum v => v
  | _ => value

/-- `RapidJsonArrayScope::SerializeValue` in Load mode: a null `NextElement`
result is silently ignored (no exception, iterator and value unchanged). -/
def rjArraySerializeValueLoad (elems : List RapidJsonNode) (mValueIt : Nat)
    (value : Int) : Int × Nat :=
  match NextElement elems mValueIt with
  | none => (value, mValueIt)
  | some (j, it2) => (rjLoadFundamentalValue j value, it2)

lemma loadItems_all (elems : List BinTestIoData) :
    ∀ k idx, idx + k ≤ elems.length →
      loadItems elems k idx = .ok ((elems.drop idx).take k) := by
  intro k
  induction k with
  | zero => intro idx h; simp [loadItems]
  | succ n ih =>
    intro idx h
    have hlt : idx < elems.length := by omega
    rw [loadItems, LoadNextItem]
    rw [if_pos hlt]
    dsimp only
    rw [ih (idx + 1) (by omega)]
    have hdt : (elems.drop idx).take (n + 1)
        = elems.getD idx .null :: (elems.drop (idx + 1)).take n := by
      rw [List.getD_eq_getElem _ _ hlt]
      rw [List.drop_eq_getElem_cons hlt]
      rfl
    rw [hdt]

lemma loadItems_past (elems : List BinTestIoData) :
    ∀ k idx, idx + k = elems.length →
      loadItems elems (k + 1) idx = .error .OutOfRange := by
  intro k
  induction k with
  | zero =>
    intro idx h
    rw [loadItems, LoadNextItem, if_neg (by omega)]
  | succ n ih =>
    intro idx h
    rw [loadItems, LoadNextItem, if_pos (show idx < elems.length by omega)]
    dsimp only
    rw [ih (idx + 1) (by omega)]

/-- **C4 (amended).** Sequential array reads past the end: in the binary stub
backend the first `n` `LoadNextItem` calls on an `n`-element array succeed,
returning the elements in order, and the `(n+1)`-th throws OutOfRange; in the
RapidJson backend, however, `NextElement` past the end returns null and the
enclosing `SerializeValue` silently leaves the target value and the iterator
unchanged — no OutOfRange error is raised there. -/
theorem array_next_past_end (elems : List BinTestIoData)
    (rjElems : List RapidJsonNode) (it : Nat) (v : Int)
    (hit : it = rjElems.length) :
    loadItems elems elems.length 0 = .ok elems ∧
    loadItems elems (elems.length + 1) 0 = .error .OutOfRange ∧
    NextElement rjElems it = none ∧
    rjArraySerializeValueLoad rjElems it v = (v, it) := by
  refine ⟨?_, ?_, ?_, ?_⟩
  · have := loadItems_all elems elems.length 0 (by omega)
    simpa using this
  · exact loadItems_past elems elems.length 0 (by omega)
  · rw [NextElement, if_pos hit]
  · rw [rjArraySerializeValueLoad, NextElement, if_pos hit]

theorem array_next_past_end_witness :
    (1 = [RapidJsonNode.jnum 5].length) ∧
    (loadItems [BinTestIoData.int64 7] 1 0 = .ok [BinTestIoData.int64 7] ∧
     loadItems [BinTestIoData.int64 7] 2 0 = .error .OutOfRange ∧
     NextElement [RapidJsonNode.jnum 5] 1 = none ∧
     rjArraySerializeValueLoad [RapidJsonNode.jnum 5] 1 9 = (9, 1)) :=
  ⟨rfl, array_next_past_end [BinTestIoData.int64 7] [RapidJsonNode.jnum 5] 1 9 rfl⟩

/-- **C4 (counterexample).** On a one-element RapidJson array, the second
sequential read does not fail with OutOfRange as the claim requires of every
backend: `NextElement` returns null and `SerializeValue` silently leaves the
target value (here 9) and the iterator unchanged. -/
theorem rj_array_read_past_end_no_error :
    NextElement [RapidJsonNode.jnum 5] 1 = none ∧
    rjArraySerializeValueLoad [RapidJsonNode.jnum 5] 1 9 = (9, 1) :=
  ⟨rfl, rfl⟩

/-- **C5.** Loading a fundamental-typed field from a Null source node is a
silent no-op under every policy combination: no error is raised, the target
keeps its prior value, and the load merely reports the field as not loaded. -/
theorem load_null_is_silent_noop (value tMin tMax : Int)
    (opts : SerializationOptions) :
    LoadFundamentalValue .null value tMin tMax opts = .ok (false, value) := rfl

/-! ### C6: duplicate keys on save -/

inductive ContractViolation where
  | assertionFailed
deriving DecidableEq, Repr

/-- `RapidJsonObjectScope::SaveJsonValue`: `assert(mNode->FindMember(key) ==
mNode->MemberEnd())` then `AddMember` appends. The debug-build assertion
failure is modelled as a contract-violation error. -/
def rjSaveJsonValue (members : List (String × RapidJsonNode)) (key : String)
    (v : RapidJsonNode) :
    Except ContractViolation (List (String × RapidJsonNode)) :=
  if (members.lookup key).isSome then .error .assertionFailed
  else .ok (members ++ [(key, v)])

/-- `BinArchiveStubObjectScope::AddArchiveValue` followed by assignment of the
saved value: `std::map::emplace(key, ...)` inserts a fresh member or returns
the existing one, and the caller writes the value through the returned
reference. There is no duplicate-key check of any kind. -/
def binObjectSaveValue (members : List (String × BinTestIoData)) (key : String)
    (v : BinTestIoData) :
    Except ContractViolation (List (String × BinTestIoData)) :=
  if (members.lookup key).isSome then
    .ok (members.map fun p => if p.1 = key then (key, v) else p)
  else .ok (members ++ [(key, v)])

lemma lookup_overwrite (members : List (String × BinTestIoData)) (key : String)
    (v : BinTestIoData) (h : (members.lookup key).isSome) :
    (members.map fun p => if p.1 = key then (key, v) else p).lookup key = some v := by
  induction members with
  | nil => simp at h
  | cons p rest ih =>
    by_cases hk : p.1 = key
    · rw [List.map_cons, if_pos hk]
      simp [List.lookup]
    · simp only [List.map_cons, if_neg hk]
      rw [List.lookup] at h ⊢
      have hbe : (key == p.1) = false := by
        simp only [beq_eq_false_iff_ne]
        exact fun he => hk he.symm
      rw [hbe] at h ⊢
      exact ih h

lemma lookup_append_new (members : List (String × BinTestIoData)) (key : String)
    (v : BinTestIoData) (h : (members.lookup key).isSome = false) :
    (members ++ [(key, v)]).lookup key = some v := by
  induction members with
  | nil => simp [List.lookup]
  | cons p rest ih =>
    rw [List.cons_append, List.lookup]
    rw [List.lookup] at h
    cases hbe : (key == p.1) with
    | true => rw [hbe] at h; simp at h
    | false => rw [hbe] at h; exact ih h

/-- **C6 (amended).** Writing a second member under an already-written key:
the RapidJson backend detects it with a debug assertion
(`assert(FindMember == MemberEnd)`), but the binary stub backend performs no
check at all — the save succeeds silently and overwrites the stored value, so
the claimed contract check does not hold in every backend. -/
theorem duplicate_key_detection (members : List (String × RapidJsonNode))
    (bmembers : List (String × BinTestIoData)) (key : String)
    (v : RapidJsonNode) (bv : BinTestIoData)
    (hdup : (members.lookup key).isSome)
    (hbdup : (bmembers.lookup key).isSome) :
    rjSaveJsonValue members key v = .error .assertionFailed ∧
    ∃ out, binObjectSaveValue bmembers key bv = .ok out ∧
      out.lookup key = some bv := by
  refine ⟨?_, ?_⟩
  · rw [rjSaveJsonValue, if_pos hdup]
  · refine ⟨bmembers.map fun p => if p.1 = key then (key, bv) else p, ?_, ?_⟩
    · rw [binObjectSaveValue, if_pos hbdup]
    · exact lookup_overwrite bmembers key bv hbdup

theorem duplicate_key_detection_witness :
    ((([("a", RapidJsonNode.jnum 1)].lookup "a").isSome) ∧
     (([("a", BinTestIoData.int64 1)].lookup "a").isSome)) ∧
    (rjSaveJsonValue [("a", RapidJsonNode.jnum 1)] "a" (RapidJsonNode.jnum 2)
        = .error .assertionFailed ∧
     ∃ out, binObjectSaveValue [("a", BinTestIoData.int64 1)] "a" (BinTestIoData.int64 2)
        = .ok out ∧ out.lookup "a" = some (BinTestIoData.int64 2)) :=
  ⟨⟨by rfl, by rfl⟩,
   duplicate_key_detection [("a", RapidJsonNode.jnum 1)] [("a", BinTestIoData.int64 1)]
     "a" (RapidJsonNode.jnum 2) (BinTestIoData.int64 2) (by rfl) (by rfl)⟩

/-- **C6 (counterexample).** In the binary stub backend, saving key "a" twice
in the same object traversal is not detected by any check: the second save
succeeds and silently overwrites the first value. -/
theorem stub_duplicate_key_silent :
    binObjectSaveValue [("a", BinTestIoData.int64 1)] "a" (BinTestIoData.int64 2)
      = .ok [("a", BitSerializer.BinTestIoData.int64 2)] := rfl

/-! ### C7: array-scope paths -/

inductive SerializeMode where
  | Load
  | Save
deriving DecidableEq, Repr

/-- `BinArchiveStubArrayScope::GetPath`: base path plus `'/'` plus the current
`mIndex` (the count of elements consumed so far in Load mode, or written so
far in Save mode). -/
def binArrayScopeGetPath (basePath : String) (mIndex : Nat) : String :=
  basePath ++ "/" ++ toString mIndex

/-- `RapidJsonArrayScope::GetPath`: `index` is the iterator distance in Load
mode (elements consumed) and `Size()` in Save mode (elements written); the
printed segment is `index == 0 ? 0 : index - 1`. -/
def rjArrayScopeGetPath (basePath : String) (mode : SerializeMode)
    (consumed written : Nat) : String :=
  let index : Nat := match mode with | .Load => consumed | .Save => written
  basePath ++ "/" ++ toString (if index = 0 then 0 else index - 1)

/-- Definition following the spec's words, for comparison: the final path
segment is claimed to be the index of the last consumed element (or 0 if none
yet) during Load, and the index of the element about to be written during
Save. -/
def specArrayPathIndex (mode : SerializeMode) (consumed written : Nat) : Nat :=
  match mode with
  | .Load => if consumed = 0 then 0 else consumed - 1
  | .Save => written

/-- **C7 (amended).** Array-scope path segments: the RapidJson backend in Load
mode prints exactly the claimed segment (index of the last consumed element,
or 0 if none yet), but the binary stub prints the raw counter `mIndex` (the
number of elements consumed or written so far), and the RapidJson backend in
Save mode prints `size - 1` clamped at 0 rather than the index about to be
written; whenever at least one element has been consumed (resp. written) the
deviating backends differ from the claimed segment, so the claim does not
hold uniformly across backends. -/
theorem array_scope_path_segments (basePath : String) (consumed written : Nat) :
    rjArrayScopeGetPath basePath .Load consumed written
      = basePath ++ "/" ++ toString (specArrayPathIndex .Load consumed written) ∧
    binArrayScopeGetPath basePath written
      = basePath ++ "/" ++ toString (specArrayPathIndex .Save consumed written) ∧
    binArrayScopeGetPath basePath consumed = basePath ++ "/" ++ toString consumed ∧
    rjArrayScopeGetPath basePath .Save consumed written
      = basePath ++ "/" ++ toString (if written = 0 then 0 else written - 1) ∧
    (1 ≤ consumed → consumed ≠ specArrayPathIndex .Load consumed written) ∧
    (1 ≤ written → (if written = 0 then 0 else written - 1)
      ≠ specArrayPathIndex .Save consumed written) := by
  refine ⟨rfl, rfl, rfl, rfl, ?_, ?_⟩
  · intro h
    simp only [specArrayPathIndex]
    rw [if_neg (by omega)]
    omega
  · intro h
    simp only [specArrayPathIndex]
    rw [if_neg (by omega)]
    omega

theorem array_scope_path_segments_witness :
    ((1 : Nat) ≤ 2 ∧ (2 : Nat) ≠ specArrayPathIndex .Load 2 3) ∧
    ((1 : Nat) ≤ 3 ∧ (if (3 : Nat) = 0 then 0 else 3 - 1) ≠ specArrayPathIndex .Save 2 3) :=
  ⟨⟨by decide, (array_scope_path_segments "" 2 3).2.2.2.2.1 (by decide)⟩,
   ⟨by decide, (array_scope_path_segments "" 2 3).2.2.2.2.2 (by decide)⟩⟩

/-- **C7 (counterexample).** After consuming the single element of a binary
stub array scope (cursor `mIndex = 1`), `GetPath` reports the segment "/1",
not the claimed "/0" (the index of the last consumed element). -/
theorem stub_path_after_first_consume :
    LoadNextItem [BinTestIoData.int64 5] 0 = .ok (BinTestIoData.int64 5, 1) ∧
    binArrayScopeGetPath "" 1 = "/1" ∧
    "" ++ "/" ++ toString (specArrayPathIndex .Load 1 0) = "/0" ∧
    ("/1" : String) ≠ "/0" :=
  ⟨rfl, rfl, rfl, by decide⟩

/-! ### C9: container loading -/

/-- `std::vector<int>::resize(n)`: keep the first `n` elements, append
value-initialized (zero) elements as needed. -/
def resizeCont (cont : List Int) (n : Nat) : List Int :=
  cont.take n ++ List.replicate (n - cont.length) 0

/-- The element loop of `SerializeContainer` in Load mode, run against the
binary stub array scope: one sequential `LoadNextItem` plus
`LoadFundamentalValue` per container element, in container order. Returns the
loaded container and the final cursor (= number of per-element reads). -/
def serializeContElems (elems : List BinTestIoData) (tMin tMax : Int)
    (opts : SerializationOptions) :
    List Int → Nat → Except SerializationErrorCode (List Int × Nat)
  | [], idx => .ok ([], idx)
  | x :: xs, idx =>
    match LoadNextItem elems idx with
    | .error e => .error e
    | .ok (ioData, idx2) =>
      match LoadFundamentalValue ioData x tMin tMax opts with
      | .error e => .error e
      | .ok (_, x2) =>
        match serializeContElems elems tMin tMax opts xs idx2 with
        | .error e => .error e
        | .ok (xs2, idxF) => .ok (x2 :: xs2, idxF)

/-- `SerializeContainer` in Load mode over the stub array scope: the container
is resized to the scope's `GetSize()` (the stored element count), then each
element is serialized in order. -/
def SerializeContainer (elems : List BinTestIoData) (cont : List Int)
    (tMin tMax : Int) (opts : SerializationOptions) :
    Except SerializationErrorCode (List Int × Nat) :=
  serializeContElems elems tMin tMax opts (resizeCont cont elems.length) 0

lemma serializeContElems_ok_shape (elems : List BinTestIoData) (tMin tMax : Int)
    (opts : SerializationOptions) :
    ∀ cs idx res idxF,
      serializeContElems elems tMin tMax opts cs idx = .ok (res, idxF) →
      idxF = idx + cs.length ∧ res.length = cs.length := by
  intro cs
  induction cs with
  | nil =>
    intro idx res idxF h
    rw [serializeContElems] at h
    cases h
    simp
  | cons x xs ih =>
    intro idx res idxF h
    rw [serializeContElems] at h
    rw [LoadNextItem] at h
    by_cases hlt : idx < elems.length
    · rw [if_pos hlt] at h
      dsimp only at h
      rcases hlf : LoadFundamentalValue (elems.getD idx .null) x tMin tMax opts
        with e | ⟨pb, px⟩
      · rw [hlf] at h; cases h
      · rw [hlf] at h
        rcases hrec : serializeContElems elems tMin tMax opts xs (idx + 1)
          with e | ⟨res2, idxF2⟩
        · rw [hrec] at h; cases h
        · rw [hrec] at h
          cases h
          have := ih (idx + 1) _ _ hrec
          simp only [List.length_cons]
          omega
    · rw [if_neg hlt] at h
      cases h

lemma skip_load_total (ioData : BinTestIoData) (value tMin tMax : Int) :
    ∃ r, LoadFundamentalValue ioData value tMin tMax ⟨.Skip, .Skip⟩ = .ok r := by
  cases ioData
  all_goals simp only [LoadFundamentalValue, SafeNumberCast]
  all_goals try split_ifs
  all_goals exact ⟨_, rfl⟩

lemma serializeContElems_skip_ok (elems : List BinTestIoData) (tMin tMax : Int) :
    ∀ cs idx, idx + cs.length ≤ elems.length →
      ∃ res, serializeContElems elems tMin tMax ⟨.Skip, .Skip⟩ cs idx
        = .ok (res, idx + cs.length) := by
  intro cs
  induction cs with
  | nil => intro idx h; exact ⟨[], by rw [serializeContElems]; simp⟩
  | cons x xs ih =>
    intro idx h
    simp only [List.length_cons] at h
    obtain ⟨r, hr⟩ := skip_load_total (elems.getD idx .null) x tMin tMax
    obtain ⟨res, hres⟩ := ih (idx + 1) (by omega)
    refine ⟨r.2 :: res, ?_⟩
    rw [serializeContElems, LoadNextItem, if_pos (show idx < elems.length by omega)]
    dsimp only
    obtain ⟨rb, rx⟩ := r
    rw [hr, hres]
    dsimp only
    simp only [List.length_cons]
    congr 2
    omega

/-- **C9.** Loading a resizable container from the stub array scope: the
container is first resized to exactly the element count the scope reports
(its `GetSize`, the stored array length); every load that completes performed
exactly `GetSize` sequential per-element reads and produced a container of
that length, in container order; and with Skip policies the load always
completes with final cursor equal to `GetSize`. -/
theorem container_load_resizes_and_counts (elems : List BinTestIoData)
    (cont : List Int) (tMin tMax : Int) :
    (resizeCont cont elems.length).length = elems.length ∧
    (∀ opts res idxF,
      SerializeContainer elems cont tMin tMax opts = .ok (res, idxF) →
      idxF = elems.length ∧ res.length = elems.length) ∧
    (∃ res, SerializeContainer elems cont tMin tMax ⟨.Skip, .Skip⟩
      = .ok (res, elems.length)) := by
  have hlen : (resizeCont cont elems.length).length = elems.length := by
    rw [resizeCont]
    simp only [List.length_append, List.length_take, List.length_replicate]
    omega
  refine ⟨hlen, ?_, ?_⟩
  · intro opts res idxF h
    rw [SerializeContainer] at h
    have := serializeContElems_ok_shape elems tMin tMax opts _ 0 res idxF h
    rw [hlen] at this
    omega
  · obtain ⟨res, hres⟩ := serializeContElems_skip_ok elems tMin tMax
      (resizeCont cont elems.length) 0 (by rw [hlen]; omega)
    rw [hlen] at hres
    simp only [Nat.zero_add] at hres
    exact ⟨res, hres⟩


theorem container_load_resizes_and_counts_witness :
    (SerializeContainer [BinTestIoData.int64 1, BinTestIoData.null] []
        (-100) 100 ⟨.Skip, .Skip⟩ = .ok ([1, 0], 2)) ∧
    ((2 : Nat) = [BinTestIoData.int64 1, BinTestIoData.null].length ∧
     ([1, 0] : List Int).length = [BinTestIoData.int64 1, BinTestIoData.null].length) :=
  ⟨by decide,
   (container_load_resizes_and_counts [BinTestIoData.int64 1, BinTestIoData.null]
      [] (-100) 100).2.1 ⟨.Skip, .Skip⟩ [1, 0] 2 (by decide)⟩

end BitSerializer
